import Mathlib

/-!
Shallow embedding of the `embedded-mqtt` codec (Rust) in Lean 4.

Byte buffers are `List Nat` whose elements play the role of `u8` values;
machine-integer casts and masks are written with `%` and `/` by powers of two.
`Result<Status<(usize, T)>, DecodeError>` becomes `Except DecodeError (Status α)`
where `Status.done consumed value` is `Status::Complete((consumed, value))` and
`Status.more needed` is `Status::Partial(needed)`.

Rust panics (integer underflow in `Packet::decode`, the out-of-bounds write in
`encode_remaining_length`, the assertion in `Packet::publish`) are modelled by
an `Option` layer: `none` means the corresponding Rust code panics.

Source files: `src/packet.rs`, `src/fixed_header/mod.rs`,
`src/fixed_header/packet_flags.rs`, `src/codec/{values,string}.rs`,
`src/variable_header/{mod,connect,connack,packet_identifier,publish}.rs`,
`src/payload/{mod,connect,subscribe,suback}.rs`, `src/qos.rs`, `src/status.rs`,
`src/error.rs`.
-/

namespace Mqtt

/-- `DecodeError` from `src/error.rs`.  The `invalidSubackReturnCode` variant is
not in the (stale) `error.rs` snapshot under `src/`, but it is used by
`payload/suback.rs`; it is also listed in the spec's error taxonomy (§7). -/
inductive DecodeError where
  | packetType
  | packetFlag
  | remainingLength
  | invalidLength
  | utf8
  | invalidQoS
  | invalidProtocolLevel
  | invalidConnectFlag
  | invalidConnackFlag
  | invalidConnackReturnCode
  | invalidSubackReturnCode
deriving DecidableEq, Repr

/-- `EncodeError` from `src/error.rs`. -/
inductive EncodeError where
  | outOfSpace
  | valueTooBig
deriving DecidableEq, Repr

/-- `Status<T>` from `src/status.rs`: `done` is `Complete`, `more` is `Partial`. -/
inductive Status (α : Type) where
  | done (consumed : Nat) (value : α)
  | more (needed : Nat)
deriving DecidableEq, Repr

/-- Equality of `Result` values is decidable componentwise. -/
instance {ε α : Type} [DecidableEq ε] [DecidableEq α] :
    DecidableEq (Except ε α) := fun a b =>
  match a, b with
  | .error e, .error e' =>
    if h : e = e' then .isTrue (by rw [h]) else .isFalse (by simp [h])
  | .error _, .ok _ => .isFalse (by simp)
  | .ok _, .error _ => .isFalse (by simp)
  | .ok v, .ok v' =>
    if h : v = v' then .isTrue (by rw [h]) else .isFalse (by simp [h])

/-- The return type of every decoder:
`Result<Status<(usize, T)>, DecodeError>`. -/
abbrev Parsed (α : Type) : Type := Except DecodeError (Status α)

/-- `QoS` from `src/qos.rs`. -/
inductive QoS where
  | atMostOnce
  | atLeastOnce
  | exactlyOnce
deriving DecidableEq, Repr

/-- `qos::Error` from `src/qos.rs`. -/
inductive QosError where
  | badPattern
deriving DecidableEq, Repr

/-- `QoS::try_from(u8)`: masks the low 2 bits, `0b11` is `BadPattern`. -/
def qos_try_from (b : Nat) : Except QosError QoS :=
  match b % 4 with
  | 0 => .ok .atMostOnce
  | 1 => .ok .atLeastOnce
  | 2 => .ok .exactlyOnce
  | _ => .error .badPattern

/-- `u8::from(QoS)` from `src/qos.rs`. -/
def qos_to_u8 : QoS → Nat
  | .atMostOnce => 0
  | .atLeastOnce => 1
  | .exactlyOnce => 2

/-- The `read!` macro from `src/status.rs`: run parser `f` on `bytes[offset..]`,
propagate errors and `Partial`, and continue with the advanced offset. -/
def rread {α β : Type} (f : List Nat → Parsed α) (bytes : List Nat) (offset : Nat)
    (k : Nat → α → Parsed β) : Parsed β :=
  match f (bytes.drop offset) with
  | .error e => .error e
  | .ok (.more n) => .ok (.more n)
  | .ok (.done c v) => k (offset + c) v

/-! ## Value codecs (`src/codec/values.rs`) -/

/-- `parse_u8` from `src/codec/values.rs`. -/
def parse_u8 : List Nat → Parsed Nat
  | [] => .ok (.more 1)
  | b :: _ => .ok (.done 1 b)

/-- `parse_u16` from `src/codec/values.rs`: big-endian 16-bit read. -/
def parse_u16 : List Nat → Parsed Nat
  | [] => .ok (.more 2)
  | [_] => .ok (.more 1)
  | b0 :: b1 :: _ => .ok (.done 2 (b0 * 256 + b1))

/-- `encode_u16` from `src/codec/values.rs` (big-endian), as the two bytes
written; the buffer is assumed large enough (the `OutOfSpace` path of a
sufficiently large buffer is not taken). -/
def encode_u16 (v : Nat) : List Nat := [v / 256, v % 256]

/-- `parse_bytes` from `src/codec/values.rs`: 16-bit length prefix then that
many raw bytes. -/
def parse_bytes (bytes : List Nat) : Parsed (List Nat) :=
  rread parse_u16 bytes 0 fun offset len =>
    let available := bytes.length - offset
    let needed := len - min available len
    if 0 < needed then .ok (.more needed)
    else .ok (.done (offset + len) ((bytes.drop offset).take len))

/-- `encode_bytes` from `src/codec/values.rs`: rejects values longer than
65535 with `ValueTooBig`, otherwise writes the length prefix and the bytes. -/
def encode_bytes (value : List Nat) : Except EncodeError (List Nat) :=
  if 65535 < value.length then .error .valueTooBig
  else .ok (encode_u16 value.length ++ value)

/-! ## UTF-8 validation (`str::from_utf8` as used by `src/codec/string.rs`)

`utf8Chars bs` returns the list of decoded code points when `bs` is valid
UTF-8 (rejecting overlong forms, surrogates and values above `U+10FFFF`,
exactly as Rust's `str::from_utf8`), and `none` otherwise. -/

/-- A UTF-8 continuation byte: `0x80 ..= 0xBF`. -/
def utf8_cont (b : Nat) : Bool := 128 ≤ b && b ≤ 191

/-- Decode a byte list as UTF-8 code points; `none` on any invalid sequence. -/
def utf8Chars : List Nat → Option (List Nat)
  | [] => some []
  | b :: rest =>
    if b ≤ 127 then
      (utf8Chars rest).map (b :: ·)
    else if b ≤ 193 then
      none
    else if b ≤ 223 then
      match rest with
      | b1 :: rest2 =>
        if utf8_cont b1 then
          (utf8Chars rest2).map (((b - 192) * 64 + (b1 - 128)) :: ·)
        else none
      | [] => none
    else if b ≤ 239 then
      match rest with
      | b1 :: b2 :: rest3 =>
        if (if b = 224 then 160 ≤ b1 && b1 ≤ 191
            else if b = 237 then 128 ≤ b1 && b1 ≤ 159
            else utf8_cont b1) && utf8_cont b2 then
          (utf8Chars rest3).map
            (((b - 224) * 4096 + (b1 - 128) * 64 + (b2 - 128)) :: ·)
        else none
      | _ => none
    else if b ≤ 244 then
      match rest with
      | b1 :: b2 :: b3 :: rest4 =>
        if (if b = 240 then 144 ≤ b1 && b1 ≤ 191
            else if b = 244 then 128 ≤ b1 && b1 ≤ 143
            else utf8_cont b1) && utf8_cont b2 && utf8_cont b3 then
          (utf8Chars rest4).map
            (((b - 240) * 262144 + (b1 - 128) * 4096 + (b2 - 128) * 64 + (b3 - 128)) :: ·)
        else none
      | _ => none
    else none

/-- A Rust `&str` value is represented by its byte list; it is well formed as
an MQTT string when it is valid UTF-8 and contains no `U+0000` code point. -/
def good_string (s : List Nat) : Bool :=
  match utf8Chars s with
  | some cs => !cs.contains 0
  | none => false

/-! ## String codec (`src/codec/string.rs`) -/

/-- `parse_string` from `src/codec/string.rs`: 16-bit length prefix, UTF-8
validation, and rejection of strings containing `U+0000` (MQTT-1.5.3-2). -/
def parse_string (bytes : List Nat) : Parsed (List Nat) :=
  rread parse_u16 bytes 0 fun offset string_len =>
    let available := bytes.length - offset
    let needed := string_len - min available string_len
    if 0 < needed then .ok (.more needed)
    else
      match (if 0 < string_len then utf8Chars ((bytes.drop 2).take string_len)
             else some []) with
      | none => .error .utf8
      | some cs =>
        if cs.contains 0 then .error .utf8
        else .ok (.done (2 + string_len) ((bytes.drop 2).take string_len))

/-- `encode_string` from `src/codec/string.rs`: strings longer than 65535
bytes are `ValueTooBig`; the buffer is assumed large enough. -/
def encode_string (s : List Nat) : Except EncodeError (List Nat) :=
  if 65535 < s.length then .error .valueTooBig
  else .ok (encode_u16 s.length ++ s)

/-! ## Fixed header (`src/fixed_header/mod.rs`) -/

/-- `PacketType` from `src/fixed_header/packet_type.rs` (14 MQTT packet
types; the enum is re-exported by `src/fixed_header/mod.rs`). -/
inductive PacketType where
  | connect | connack | publish | puback | pubrec | pubrel | pubcomp
  | subscribe | suback | unsubscribe | unsuback | pingreq | pingresp
  | disconnect
deriving DecidableEq, Repr

/-- `FixedHeader` from `src/fixed_header/mod.rs`; `flags` is the raw 4-bit
`PacketFlags` value and `len` the `u32` remaining length. -/
structure FixedHeader where
  ptype : PacketType
  flags : Nat
  len : Nat
deriving DecidableEq, Repr

/-- Loop body of `parse_remaining_length` from `src/fixed_header/mod.rs`,
consuming the remaining byte list instead of indexing (so `index` only counts
the bytes already consumed).  `128 * 128 * 128 = 2097152` is the multiplier
cap; `b % 256 < 128` is the `byte & 128 == 0` continuation test on a `u8`. -/
def prl_go (bytes : List Nat) (multiplier value index : Nat) : Parsed Nat :=
  if 2097152 < multiplier then .error .remainingLength
  else
    match bytes with
    | [] => .ok (.more 1)
    | b :: rest =>
      let value := value + b % 128 * multiplier
      if b % 256 < 128 then .ok (.done (index + 1) value)
      else prl_go rest (multiplier * 128) value (index + 1)

/-- `parse_remaining_length` from `src/fixed_header/mod.rs`. -/
def parse_remaining_length (bytes : List Nat) : Parsed Nat :=
  prl_go bytes 1 0 0

/-- Loop of `encode_remaining_length` from `src/fixed_header/mod.rs`.  The
Rust loop writes into a `[u8; 4]` buffer at `buf[index]`, with `index`
counting up from 0; `none` models the out-of-bounds write (a panic) when a
fifth digit would be needed.  Here `budget = 4 - index` counts the remaining
buffer slots downward, so the recursion is structural.  `byte |= 128` becomes
`+ 128` since `byte = len % 128 < 128`. -/
def erl_go : Nat → Nat → Option (List Nat)
  | _, 0 => none
  | len, budget + 1 =>
    if len / 128 = 0 then some [len % 128]
    else (erl_go (len / 128) budget).map (fun ds => (len % 128 + 128) :: ds)

/-- `encode_remaining_length` from `src/fixed_header/mod.rs`: the digit bytes
written into the 4-byte buffer, or `none` for the out-of-bounds panic.  The
byte count returned by the Rust function is the length of the list. -/
def encode_remaining_length (len : Nat) : Option (List Nat) :=
  erl_go len 4

/-- `ZERO_TYPES` from `validate_flag` in `src/fixed_header/mod.rs`: packet
types whose flag nibble must be `0b0000`. -/
def zero_types : List PacketType :=
  [.connect, .connack, .puback, .pubrec, .pubcomp, .suback, .unsuback,
   .pingreq, .pingresp, .disconnect]

/-- `ONE_TYPES` from `validate_flag` in `src/fixed_header/mod.rs`: packet
types whose flag nibble must be `0b0010`. -/
def one_types : List PacketType := [.pubrel, .subscribe, .unsubscribe]

/-- `validate_flag_val` from `src/fixed_header/mod.rs`. -/
def validate_flag_val (t : PacketType) (flags : Nat) (types : List PacketType)
    (expected : Nat) : Except DecodeError (PacketType × Nat) :=
  if t ∈ types ∧ flags ≠ expected then .error .packetFlag
  else .ok (t, flags)

/-- `validate_flag` from `src/fixed_header/mod.rs`. -/
def validate_flag (t : PacketType) (flags : Nat) :
    Except DecodeError (PacketType × Nat) :=
  match validate_flag_val t flags zero_types 0 with
  | .error e => .error e
  | .ok _ => validate_flag_val t flags one_types 2

/-- `parse_packet_type` from `src/fixed_header/mod.rs`: high nibble selects
the packet type (`(inp & 0xF0) >> 4`, here `inp % 256 / 16`), low nibble is
the flags field, then the per-type flag validation runs. -/
def parse_packet_type (b : Nat) : Except DecodeError (PacketType × Nat) :=
  match b % 256 / 16 with
  | 1 => validate_flag .connect (b % 16)
  | 2 => validate_flag .connack (b % 16)
  | 3 => validate_flag .publish (b % 16)
  | 4 => validate_flag .puback (b % 16)
  | 5 => validate_flag .pubrec (b % 16)
  | 6 => validate_flag .pubrel (b % 16)
  | 7 => validate_flag .pubcomp (b % 16)
  | 8 => validate_flag .subscribe (b % 16)
  | 9 => validate_flag .suback (b % 16)
  | 10 => validate_flag .unsubscribe (b % 16)
  | 11 => validate_flag .unsuback (b % 16)
  | 12 => validate_flag .pingreq (b % 16)
  | 13 => validate_flag .pingresp (b % 16)
  | 14 => validate_flag .disconnect (b % 16)
  | _ => .error .packetType

/-- The numeric packet type used by `encode_packet_type` in
`src/fixed_header/mod.rs`. -/
def packet_type_to_u8 : PacketType → Nat
  | .connect => 1 | .connack => 2 | .publish => 3 | .puback => 4
  | .pubrec => 5 | .pubrel => 6 | .pubcomp => 7 | .subscribe => 8
  | .suback => 9 | .unsubscribe => 10 | .unsuback => 11 | .pingreq => 12
  | .pingresp => 13 | .disconnect => 14

/-- `encode_packet_type` from `src/fixed_header/mod.rs`:
`(packet_type << 4) | flags.0`.  Every reachable `PacketFlags` value is a
4-bit nibble (decode masks with `0xF`, the encode-side constants and
`PublishFlags` setters only touch bits 0-3), so `|` coincides with `+`. -/
def encode_packet_type (t : PacketType) (flags : Nat) : Nat :=
  packet_type_to_u8 t * 16 + flags % 16

/-- `FixedHeader::decode` from `src/fixed_header/mod.rs`: at least 2 bytes,
the type/flags byte, then the remaining length starting at offset 1. -/
def fixed_header_decode : List Nat → Parsed FixedHeader
  | [] => .ok (.more 2)
  | [_] => .ok (.more 1)
  | b :: rest =>
    match parse_packet_type b with
    | .error e => .error e
    | .ok (t, flags) =>
      match parse_remaining_length rest with
      | .error e => .error e
      | .ok (.more n) => .ok (.more n)
      | .ok (.done c len) => .ok (.done (1 + c) ⟨t, flags, len⟩)

/-- `FixedHeader::encode` from `src/fixed_header/mod.rs`: the type/flags byte
followed by the remaining-length digits; `none` models the
`encode_remaining_length` buffer-overflow panic. -/
def fixed_header_encode (fh : FixedHeader) : Option (List Nat) :=
  (encode_remaining_length fh.len).map
    (fun ds => encode_packet_type fh.ptype fh.flags :: ds)

/-- `FixedHeader::encoded_len` from `src/fixed_header/mod.rs`:
`1 + encode_remaining_length(len, ..)`; `none` models the same panic. -/
def fixed_header_encoded_len (fh : FixedHeader) : Option Nat :=
  (encode_remaining_length fh.len).map (fun ds => 1 + ds.length)

/-! ## Variable headers (`src/variable_header/`) -/

/-- Connect variable header from `src/variable_header/connect.rs`.  The
`level` field always holds `Level::Level3_1_1` (wire value 4), the only
inhabitant of `Level`, so it is left implicit; `name` is the protocol-name
string and `flags` the raw 8-bit Connect-Flags byte. -/
structure ConnectVH where
  name : List Nat
  flags : Nat
  keep_alive : Nat
deriving DecidableEq, Repr

/-- `will_qos` of the Connect `Flags` bitfield: bits 4-3
(`bit_range(4, 3)` followed by `QoS::try_from`). -/
def connect_will_qos (flags : Nat) : Except QosError QoS :=
  qos_try_from (flags / 8 % 4)

/-- `Connect::decode` from `src/variable_header/connect.rs`: protocol-name
string, protocol-level byte (must be 4, else `InvalidProtocolLevel`),
Connect-Flags byte (will-QoS bits must not be `0b11`, else
`InvalidConnectFlag`), then the 16-bit keep-alive. -/
def connect_vh_decode (bytes : List Nat) : Parsed ConnectVH :=
  rread parse_string bytes 0 fun o1 name =>
  rread parse_u8 bytes o1 fun o2 level =>
  if level ≠ 4 then .error .invalidProtocolLevel
  else
    rread parse_u8 bytes o2 fun o3 flags =>
    match connect_will_qos flags with
    | .error .badPattern => .error .invalidConnectFlag
    | .ok _ =>
      rread parse_u16 bytes o3 fun o4 keep_alive =>
      .ok (.done o4 ⟨name, flags, keep_alive⟩)

/-- `Connect::encode` from `src/variable_header/connect.rs`: name string,
level byte (4), flags byte, keep-alive. -/
def connect_vh_encode (vh : ConnectVH) : Except EncodeError (List Nat) :=
  match encode_string vh.name with
  | .error e => .error e
  | .ok nameBytes => .ok (nameBytes ++ [4, vh.flags] ++ encode_u16 vh.keep_alive)

/-- `Connect::encoded_len` from `src/variable_header/connect.rs`:
`name.encoded_len() + 1 + 1 + 2`. -/
def connect_vh_encoded_len (vh : ConnectVH) : Nat :=
  (2 + vh.name.length) + 1 + 1 + 2

/-- `connack::ReturnCode` from `src/variable_header/connack.rs`. -/
inductive ConnackReturnCode where
  | accepted
  | refusedProtocolVersion
  | refusedClientIdentifier
  | refusedServerUnavailable
  | refusedUsernameOrPassword
  | refusedNotAuthorized
deriving DecidableEq, Repr

/-- Connack variable header from `src/variable_header/connack.rs`; `flags` is
the raw acknowledge-flags byte. -/
structure Connack where
  flags : Nat
  return_code : ConnackReturnCode
deriving DecidableEq, Repr

/-- `connack::ReturnCode::try_from` from `src/variable_header/connack.rs`. -/
def connack_return_code_try_from (b : Nat) : Option ConnackReturnCode :=
  match b with
  | 0 => some .accepted
  | 1 => some .refusedProtocolVersion
  | 2 => some .refusedClientIdentifier
  | 3 => some .refusedServerUnavailable
  | 4 => some .refusedUsernameOrPassword
  | 5 => some .refusedNotAuthorized
  | _ => none

/-- `Connack::decode` from `src/variable_header/connack.rs`: needs 2 bytes;
the flags byte may only have bit 0 set (`0b1111_1110 & from != 0` is
`InvalidConnackFlag`); the return-code byte maps to the 6-value enum. -/
def connack_decode : List Nat → Parsed Connack
  | [] => .ok (.more 2)
  | [_] => .ok (.more 1)
  | f :: rc :: _ =>
    if f % 256 / 2 ≠ 0 then .error .invalidConnackFlag
    else
      match connack_return_code_try_from rc with
      | none => .error .invalidConnackReturnCode
      | some code => .ok (.done 2 ⟨f, code⟩)

/-- `PacketIdentifier::decode` from
`src/variable_header/packet_identifier.rs`: a bare 16-bit read. -/
def packet_identifier_decode (bytes : List Nat) : Parsed Nat :=
  rread parse_u16 bytes 0 fun offset pid => .ok (.done offset pid)

/-- Publish variable header from `src/variable_header/publish.rs`. -/
structure PublishVH where
  topic_name : List Nat
  packet_identifier : Option Nat
deriving DecidableEq, Repr

/-- `PublishFlags::qos` from `src/fixed_header/packet_flags.rs`:
`bit_range(2, 1)` then `QoS::try_from`. -/
def publish_flags_qos (flags : Nat) : Except QosError QoS :=
  qos_try_from (flags / 2 % 4)

/-- `Publish::decode` from `src/variable_header/publish.rs`: validate the
fixed-header flags as `PublishFlags` (bad QoS bits are `InvalidQoS`), read the
topic-name string, then a 16-bit packet identifier only when the QoS is not
`AtMostOnce`. -/
def publish_vh_decode (flags : Nat) (bytes : List Nat) : Parsed PublishVH :=
  match publish_flags_qos flags with
  | .error _ => .error .invalidQoS
  | .ok q =>
    rread parse_string bytes 0 fun o1 topic =>
    if q ≠ .atMostOnce then
      rread parse_u16 bytes o1 fun o2 pid =>
      .ok (.done o2 ⟨topic, some pid⟩)
    else .ok (.done o1 ⟨topic, none⟩)

/-- `Publish::encode` from `src/variable_header/publish.rs`. -/
def publish_vh_encode (vh : PublishVH) : Except EncodeError (List Nat) :=
  match encode_string vh.topic_name with
  | .error e => .error e
  | .ok topicBytes =>
    .ok (topicBytes ++ (vh.packet_identifier.map encode_u16).getD [])

/-- `Publish::encoded_len` from `src/variable_header/publish.rs`. -/
def publish_vh_encoded_len (vh : PublishVH) : Nat :=
  (2 + vh.topic_name.length) + (vh.packet_identifier.map (fun _ => 2)).getD 0

/-- `VariableHeader` from `src/variable_header/mod.rs`.  The `puback` variant
is used by `Packet::puback` in `src/packet.rs`; the enum in the (stale)
`variable_header/mod.rs` snapshot under `src/` lacks it.
Modelled from the spec: §4.4 gives Puback the shared bare-16-bit
PacketIdentifier shape. -/
inductive VariableHeader where
  | connect (c : ConnectVH)
  | connack (c : Connack)
  | subscribe (pid : Nat)
  | suback (pid : Nat)
  | puback (pid : Nat)
  | publish (p : PublishVH)
deriving DecidableEq, Repr

/-- `VariableHeader::decode` from `src/variable_header/mod.rs` (lines 41-58):
dispatch by packet type; only Connect, Connack, Subscribe, Suback and Publish
have a variable-header decoder (`None` for every other type, including
Puback), and only Publish receives the fixed-header flags. -/
def variable_header_decode (t : PacketType) (flags : Nat) (bytes : List Nat) :
    Option (Parsed VariableHeader) :=
  match t with
  | .connect =>
    some (match connect_vh_decode bytes with
      | .error e => .error e
      | .ok (.more n) => .ok (.more n)
      | .ok (.done c v) => .ok (.done c (.connect v)))
  | .connack =>
    some (match connack_decode bytes with
      | .error e => .error e
      | .ok (.more n) => .ok (.more n)
      | .ok (.done c v) => .ok (.done c (.connack v)))
  | .subscribe =>
    some (match packet_identifier_decode bytes with
      | .error e => .error e
      | .ok (.more n) => .ok (.more n)
      | .ok (.done c v) => .ok (.done c (.subscribe v)))
  | .suback =>
    some (match packet_identifier_decode bytes with
      | .error e => .error e
      | .ok (.more n) => .ok (.more n)
      | .ok (.done c v) => .ok (.done c (.suback v)))
  | .publish =>
    some (match publish_vh_decode flags bytes with
      | .error e => .error e
      | .ok (.more n) => .ok (.more n)
      | .ok (.done c v) => .ok (.done c (.publish v)))
  | _ => none

/-- `VariableHeader::encoded_len`: dispatch to each variant's own
`encoded_len` (`connect.rs`, `connack.rs`, `packet_identifier.rs`,
`publish.rs`).  Modelled from the spec: §4.4 (the `Encodable` impl in the
stale `variable_header/mod.rs` snapshot predates the Puback variant). -/
def variable_header_encoded_len : VariableHeader → Nat
  | .connect c => connect_vh_encoded_len c
  | .connack _ => 2
  | .subscribe _ => 2
  | .suback _ => 2
  | .puback _ => 2
  | .publish p => publish_vh_encoded_len p

/-- `VariableHeader::encode`: dispatch to each variant's own `encode`.
Modelled from the spec: §4.4 (same stale-snapshot caveat as
`variable_header_encoded_len`). -/
def variable_header_encode : VariableHeader → Except EncodeError (List Nat)
  | .connect c => connect_vh_encode c
  | .connack c => .ok [c.flags, (match c.return_code with
      | .accepted => 0 | .refusedProtocolVersion => 1
      | .refusedClientIdentifier => 2 | .refusedServerUnavailable => 3
      | .refusedUsernameOrPassword => 4 | .refusedNotAuthorized => 5)]
  | .subscribe pid => .ok (encode_u16 pid)
  | .suback pid => .ok (encode_u16 pid)
  | .puback pid => .ok (encode_u16 pid)
  | .publish p => publish_vh_encode p

/-! ## Payloads (`src/payload/`) -/

/-- `Will` from `src/payload/connect.rs`. -/
structure Will where
  topic : List Nat
  message : List Nat
deriving DecidableEq, Repr

/-- Connect payload from `src/payload/connect.rs`. -/
structure ConnectPayload where
  client_id : List Nat
  will : Option Will
  username : Option (List Nat)
  password : Option (List Nat)
deriving DecidableEq, Repr

/-- `Will::decode` from `src/payload/connect.rs`: topic string then message
byte-string. -/
def will_decode (bytes : List Nat) : Parsed Will :=
  rread parse_string bytes 0 fun o1 topic =>
  rread parse_bytes bytes o1 fun o2 message =>
  .ok (.done o2 ⟨topic, message⟩)

/-- Connect-Flags accessors from `src/variable_header/connect.rs`:
`has_will` is bit 2, `has_username` bit 7, `has_password` bit 6. -/
def flags_has_will (flags : Nat) : Bool := flags / 4 % 2 = 1

/-- `has_username` is bit 7 of the Connect-Flags byte. -/
def flags_has_username (flags : Nat) : Bool := flags / 128 % 2 = 1

/-- `has_password` is bit 6 of the Connect-Flags byte. -/
def flags_has_password (flags : Nat) : Bool := flags / 64 % 2 = 1

/-- Password step of `payload::connect::Connect::decode` from
`src/payload/connect.rs`.  Note the source's password branch is
`(offset, Some(bytes))`: it stores the whole input slice `bytes`, not the
parsed password slice `_pw`. -/
def connect_payload_decode_pass (flags : Nat) (bytes : List Nat)
    (cid : List Nat) (w : Option Will) (u : Option (List Nat)) (o3 : Nat) :
    Parsed ConnectPayload :=
  if flags_has_password flags then
    rread parse_bytes bytes o3 fun o4 _pw =>
      .ok (.done o4 ⟨cid, w, u, some bytes⟩)
  else .ok (.done o3 ⟨cid, w, u, none⟩)

/-- Username step of `payload::connect::Connect::decode` from
`src/payload/connect.rs`. -/
def connect_payload_decode_user (flags : Nat) (bytes : List Nat)
    (cid : List Nat) (w : Option Will) (o2 : Nat) : Parsed ConnectPayload :=
  if flags_has_username flags then
    rread parse_string bytes o2 fun o3 u =>
      connect_payload_decode_pass flags bytes cid w (some u) o3
  else connect_payload_decode_pass flags bytes cid w none o2

/-- `payload::connect::Connect::decode` from `src/payload/connect.rs`:
client-id string, then a Will, a username and a password gated by the
Connect-Flags bits, in this order. -/
def connect_payload_decode (flags : Nat) (bytes : List Nat) :
    Parsed ConnectPayload :=
  rread parse_string bytes 0 fun o1 cid =>
  if flags_has_will flags then
    rread will_decode bytes o1 fun o2 w =>
      connect_payload_decode_user flags bytes cid (some w) o2
  else connect_payload_decode_user flags bytes cid none o1

/-- `Will::encoded_len` from `src/payload/connect.rs`. -/
def will_encoded_len (w : Will) : Nat :=
  2 + w.topic.length + 2 + w.message.length

/-- `Will::encode` from `src/payload/connect.rs`. -/
def will_encode (w : Will) : Except EncodeError (List Nat) :=
  match encode_string w.topic with
  | .error e => .error e
  | .ok t =>
    match encode_bytes w.message with
    | .error e => .error e
    | .ok m => .ok (t ++ m)

/-- `payload::connect::Connect::encoded_len` from `src/payload/connect.rs`. -/
def connect_payload_encoded_len (p : ConnectPayload) : Nat :=
  (2 + p.client_id.length)
    + (p.will.map will_encoded_len).getD 0
    + (p.username.map (fun u => 2 + u.length)).getD 0
    + (p.password.map (fun pw => 2 + pw.length)).getD 0

/-- `payload::connect::Connect::encode` from `src/payload/connect.rs`. -/
def connect_payload_encode (p : ConnectPayload) : Except EncodeError (List Nat) :=
  match encode_string p.client_id with
  | .error e => .error e
  | .ok cid =>
    match (match p.will with
           | none => .ok []
           | some w => will_encode w : Except EncodeError (List Nat)) with
    | .error e => .error e
    | .ok w =>
      match (match p.username with
             | none => .ok []
             | some u => encode_string u : Except EncodeError (List Nat)) with
      | .error e => .error e
      | .ok u =>
        match (match p.password with
               | none => .ok []
               | some pw => encode_bytes pw : Except EncodeError (List Nat)) with
        | .error e => .error e
        | .ok pw => .ok (cid ++ w ++ u ++ pw)

/-- `parse_subscription` from `src/payload/subscribe.rs`: a topic-filter
string followed by a QoS byte (`QoS::try_from` failure surfaces as
`InvalidQoS` through the `From<qos::Error>` conversion). -/
def parse_subscription (bytes : List Nat) : Parsed (List Nat × QoS) :=
  match parse_string bytes with
  | .error e => .error e
  | .ok (.more n) => .ok (.more n)
  | .ok (.done o topic) =>
    match parse_u8 (bytes.drop o) with
    | .error e => .error e
    | .ok (.more n) => .ok (.more n)
    | .ok (.done o2 q) =>
      match qos_try_from q with
      | .error _ => .error .invalidQoS
      | .ok qv => .ok (.done (o + o2) (topic, qv))

/-- `Subscribe` payload from `src/payload/subscribe.rs`: the `Encode` variant
wraps a literal topic list, the `Decode` variant wraps the validated byte
range that the lazy iterator reinterprets. -/
inductive SubscribePayload where
  | Encode (topics : List (List Nat × QoS))
  | Decode (bytes : List Nat)
deriving DecidableEq, Repr

/-- The validation loop of `Subscribe::decode` from `src/payload/subscribe.rs`
on the remaining suffix, with an explicit step counter: `none` means every
subscription parsed exactly to the end; a `Partial` mid-payload is
`InvalidLength`.  A completed `parse_subscription` always consumes at least 3
bytes, so `bytes.length` steps always suffice and the counter never reaches 0
on a non-empty suffix (proved below as `subscribe_validate_go_fuel`). -/
def subscribe_validate_go : Nat → List Nat → Option DecodeError
  | _, [] => none
  | 0, _ :: _ => some .invalidLength
  | fuel + 1, l =>
    match parse_subscription l with
    | .error e => some e
    | .ok (.more _) => some .invalidLength
    | .ok (.done o _) => subscribe_validate_go fuel (l.drop o)

/-- The validation loop of `Subscribe::decode` from
`src/payload/subscribe.rs`. -/
def subscribe_validate (bytes : List Nat) : Option DecodeError :=
  subscribe_validate_go bytes.length bytes

/-- `Subscribe::decode` from `src/payload/subscribe.rs`: validate the whole
byte range, then expose it as the `Decode` variant. -/
def subscribe_payload_decode (bytes : List Nat) : Parsed SubscribePayload :=
  match subscribe_validate bytes with
  | some e => .error e
  | none => .ok (.done bytes.length (.Decode bytes))

/-- The `topics()` iterator of `src/payload/subscribe.rs` over a validated
byte range, as a list, with the same step counter as the validation loop.
The iterator's `expect("already validated")` cannot fire after validation;
that unreachable branch (and counter exhaustion) stops the iteration. -/
def sub_items_go : Nat → List Nat → List (List Nat × QoS)
  | _, [] => []
  | 0, _ :: _ => []
  | fuel + 1, l =>
    match parse_subscription l with
    | .ok (.done o item) => item :: sub_items_go fuel (l.drop o)
    | _ => []

/-- The `topics()` iterator of `src/payload/subscribe.rs` as a list: the
`Encode` variant iterates the literal list; the `Decode` variant re-parses
the validated bytes. -/
def subscribe_topics : SubscribePayload → List (List Nat × QoS)
  | .Encode topics => topics
  | .Decode bytes => sub_items_go bytes.length bytes

/-- `Subscribe::encoded_len` from `src/payload/subscribe.rs`:
`topic.encoded_len() + 1` summed over the iterator. -/
def subscribe_payload_encoded_len (s : SubscribePayload) : Nat :=
  ((subscribe_topics s).map (fun t => 2 + t.1.length + 1)).sum

/-- `Subscribe::encode` from `src/payload/subscribe.rs`: each topic string
followed by its QoS byte. -/
def subscribe_payload_encode (s : SubscribePayload) : Except EncodeError (List Nat) :=
  (subscribe_topics s).foldl
    (fun acc t =>
      match acc with
      | .error e => .error e
      | .ok bs =>
        match encode_string t.1 with
        | .error e => .error e
        | .ok ts => .ok (bs ++ ts ++ [qos_to_u8 t.2]))
    (.ok [])

/-- The byte string written by `Subscribe::encode` for one `(topic, qos)`
entry: the length-prefixed topic string followed by the QoS byte. -/
def subscription_bytes (t : List Nat × QoS) : List Nat :=
  (t.1.length / 256 :: t.1.length % 256 :: t.1) ++ [qos_to_u8 t.2]

/-- The byte string written by `Subscribe::encode` for a topic list. -/
def subscriptions_bytes (topics : List (List Nat × QoS)) : List Nat :=
  (topics.map subscription_bytes).flatten

/-- `ReturnCode::try_from` from `src/payload/suback.rs` as a validity
predicate on the byte: reserved bits 2-6 (`0b0111_1100`) must be clear, and
the failure bit 7 and the success bits 0-1 must not both be set. -/
def return_code_valid (b : Nat) : Bool :=
  if b / 4 % 32 ≠ 0 then false
  else !(b % 4 ≠ 0 && b / 128 % 2 ≠ 0)

/-- Suback payload from `src/payload/suback.rs`: the validated bytes,
reinterpreted in place as return codes (`ReturnCode` is a `u8` newtype). -/
structure SubackPayload where
  return_codes : List Nat
deriving DecidableEq, Repr

/-- One step of the validation fold of `Suback::decode` from
`src/payload/suback.rs`: `acc?; ReturnCode::try_from(*byte).map(|_| ())`. -/
def suback_step (acc : Except Unit Unit) (b : Nat) : Except Unit Unit :=
  match acc with
  | .error e => .error e
  | .ok _ => if return_code_valid b then .ok () else .error ()

/-- The validation fold of `Suback::decode` from `src/payload/suback.rs`:
`Ok` exactly when every byte is a valid return code. -/
def suback_validate (bytes : List Nat) : Except Unit Unit :=
  bytes.foldl suback_step (.ok ())

/-- `Suback::decode` from `src/payload/suback.rs`: validate all bytes
(`InvalidSubackReturnCode` on failure), then reinterpret the byte range. -/
def suback_payload_decode (bytes : List Nat) : Parsed SubackPayload :=
  match suback_validate bytes with
  | .error _ => .error .invalidSubackReturnCode
  | .ok _ => .ok (.done bytes.length ⟨bytes⟩)

/-- `Payload` from `src/payload/mod.rs`. -/
inductive Payload where
  | bytes (bs : List Nat)
  | connect (c : ConnectPayload)
  | subscribe (s : SubscribePayload)
  | suback (s : SubackPayload)
deriving DecidableEq, Repr

/-- `Payload::decode` from `src/payload/mod.rs` (lines 22-47): only Suback
and Subscribe have structured payload decoders; the Connect arm is commented
out (`TODO need to pass the variable header / flags to the payload parser`),
so every other type returns `None`. -/
def payload_decode (t : PacketType) (bytes : List Nat) :
    Option (Parsed Payload) :=
  match t with
  | .suback =>
    some (match suback_payload_decode bytes with
      | .error e => .error e
      | .ok (.more n) => .ok (.more n)
      | .ok (.done c v) => .ok (.done c (.suback v)))
  | .subscribe =>
    some (match subscribe_payload_decode bytes with
      | .error e => .error e
      | .ok (.more n) => .ok (.more n)
      | .ok (.done c v) => .ok (.done c (.subscribe v)))
  | _ => none

/-- `Payload::encoded_len` from `src/payload/mod.rs`. -/
def payload_encoded_len : Payload → Nat
  | .bytes bs => bs.length
  | .connect c => connect_payload_encoded_len c
  | .subscribe s => subscribe_payload_encoded_len s
  | .suback s => s.return_codes.length

/-- `Payload::encode` from `src/payload/mod.rs` (the buffer is assumed large
enough, so the raw-bytes `OutOfSpace` path is not taken). -/
def payload_encode : Payload → Except EncodeError (List Nat)
  | .bytes bs => .ok bs
  | .connect c => connect_payload_encode c
  | .subscribe s => subscribe_payload_encode s
  | .suback s => .ok s.return_codes

/-! ## Packet aggregator (`src/packet.rs`) -/

/-- `Packet` from `src/packet.rs`. -/
structure Packet where
  fixed_header : FixedHeader
  variable_header : Option VariableHeader
  payload : Payload
deriving DecidableEq, Repr

/-- Checkpoint 3 of `Packet::decode` from `src/packet.rs`: the payload-length
computation `fixed_header.len() as usize - variable_header_consumed` is a
`usize` subtraction; `none` models its underflow (a panic) when the variable
header consumed more than the remaining length. -/
def packet_decode_payload (bytes : List Nat) (fho : Nat) (fh : FixedHeader)
    (vhc : Nat) (vh : Option VariableHeader) : Option (Parsed Packet) :=
  if fh.len < vhc then none
  else
    let payload_len := fh.len - vhc
    let available := bytes.length - (fho + vhc)
    let needed := payload_len - min available payload_len
    if 0 < needed then some (.ok (.more needed))
    else
      let payload_bytes := (bytes.drop (fho + vhc)).take payload_len
      match payload_decode fh.ptype payload_bytes with
      | some (.error e) => some (.error e)
      | some (.ok (.more n)) => some (.ok (.more n))
      | some (.ok (.done _ p)) =>
        some (.ok (.done (fho + fh.len) ⟨fh, vh, p⟩))
      | none =>
        some (.ok (.done (fho + fh.len) ⟨fh, vh, .bytes payload_bytes⟩))

/-- `Packet::decode` from `src/packet.rs` (lines 164-208): fixed header, then
the optional variable header, then the payload slice of exactly
`remaining_length - variable_header_consumed` bytes. -/
def packet_decode (bytes : List Nat) : Option (Parsed Packet) :=
  match fixed_header_decode bytes with
  | .error e => some (.error e)
  | .ok (.more n) => some (.ok (.more n))
  | .ok (.done fho fh) =>
    match variable_header_decode fh.ptype fh.flags (bytes.drop fho) with
    | some (.error e) => some (.error e)
    | some (.ok (.more n)) => some (.ok (.more n))
    | some (.ok (.done vhc vh)) =>
      packet_decode_payload bytes fho fh vhc (some vh)
    | none => packet_decode_payload bytes fho fh 0 none

/-- `Packet::encoded_len` from `src/packet.rs`:
`fixed_header.encoded_len() + fixed_header.len()`; `none` models the
remaining-length buffer-overflow panic. -/
def packet_encoded_len (p : Packet) : Option Nat :=
  (fixed_header_encoded_len p.fixed_header).map (· + p.fixed_header.len)

/-- `Packet::encode` from `src/packet.rs`: fixed header, then variable header
if present, then payload (buffer assumed large enough).  The outer `none`
models the remaining-length buffer-overflow panic in the fixed-header step. -/
def packet_encode (p : Packet) : Option (Except EncodeError (List Nat)) :=
  match fixed_header_encode p.fixed_header with
  | none => none
  | some fhb =>
    some (match (match p.variable_header with
                 | some vh => variable_header_encode vh
                 | none => .ok [] : Except EncodeError (List Nat)) with
      | .error e => .error e
      | .ok vhb =>
        match payload_encode p.payload with
        | .error e => .error e
        | .ok pb => .ok (fhb ++ vhb ++ pb))

/-- `Packet::packet` from `src/packet.rs` (lines 112-131): compute the
remaining length as the variable-header plus payload encoded lengths;
`u32::try_from` fails with `ValueTooBig` above `u32::MAX`. -/
def packet_mk (t : PacketType) (flags : Nat) (vh : Option VariableHeader)
    (payload : Payload) : Except EncodeError Packet :=
  let len := (vh.map variable_header_encoded_len).getD 0 + payload_encoded_len payload
  if 4294967295 < len then .error .valueTooBig
  else .ok ⟨⟨t, flags, len⟩, vh, payload⟩

/-- `Packet::connect` from `src/packet.rs`: flags nibble `0b0000`. -/
def packet_connect (vh : ConnectVH) (p : ConnectPayload) :
    Except EncodeError Packet :=
  packet_mk .connect 0 (some (.connect vh)) (.connect p)

/-- `Packet::subscribe` from `src/packet.rs`: flags nibble `0b0010`; the
payload is `Subscribe::new(topics)`, the `Encode` variant. -/
def packet_subscribe (pid : Nat) (topics : List (List Nat × QoS)) :
    Except EncodeError Packet :=
  packet_mk .subscribe 2 (some (.subscribe pid)) (.subscribe (.Encode topics))

/-- `Packet::publish` from `src/packet.rs`: `none` models the panics of
`flags.qos().expect("valid qos")` (QoS bits `0b11`) and of the assertion that
a non-`AtMostOnce` publish carries a packet identifier. -/
def packet_publish (flags : Nat) (vh : PublishVH) (payload : List Nat) :
    Option (Except EncodeError Packet) :=
  match publish_flags_qos flags with
  | .error _ => none
  | .ok q =>
    if q = .atMostOnce ∨ vh.packet_identifier.isSome then
      some (packet_mk .publish flags (some (.publish vh)) (.bytes payload))
    else none

/-- `Packet::puback` from `src/packet.rs`: flags nibble `0b0000`, default
(empty bytes) payload. -/
def packet_puback (pid : Nat) : Except EncodeError Packet :=
  packet_mk .puback 0 (some (.puback pid)) (.bytes [])

/-- `Packet::pingreq` from `src/packet.rs`: remaining length 0, no variable
header, default payload. -/
def packet_pingreq : Packet := ⟨⟨.pingreq, 0, 0⟩, none, .bytes []⟩

/-- `Packet::pingresp` from `src/packet.rs`. -/
def packet_pingresp : Packet := ⟨⟨.pingresp, 0, 0⟩, none, .bytes []⟩

/-- Incremental-parse property of a parser (spec section 8, prefix
behaviour): once the parser completes on some input consuming `c` bytes, it
completes identically on any prefix of at least `c` bytes, and on any
shorter prefix it is `Partial`, asking for at least one and at most the
rest of the `c` bytes. -/
def parser_incremental {α : Type} (f : List Nat → Parsed α) : Prop :=
  ∀ bytes c v, f bytes = .ok (.done c v) →
    (∀ j, c ≤ j → f (bytes.take j) = .ok (.done c v)) ∧
    (∀ k, k < c → ∃ m, 1 ≤ m ∧ k + m ≤ c ∧ f (bytes.take k) = .ok (.more m))

/-! ## Lemmas: remaining-length codec -/

/-- Unfolding of `prl_go` on a non-empty buffer. -/
theorem prl_go_cons (b : Nat) (rest : List Nat) (m val idx : Nat) :
    prl_go (b :: rest) m val idx =
      if 2097152 < m then .error .remainingLength
      else if b % 256 < 128 then .ok (.done (idx + 1) (val + b % 128 * m))
      else prl_go rest (m * 128) (val + b % 128 * m) (idx + 1) := by
  rw [prl_go]

/-- Unfolding of `prl_go` on an empty buffer. -/
theorem prl_go_nil (m val idx : Nat) :
    prl_go [] m val idx =
      if 2097152 < m then .error .remainingLength else .ok (.more 1) := by
  rw [prl_go]

/-- Core correctness of the remaining-length codec: below the digit budget,
`erl_go` produces the canonical digits, and `prl_go` parses them back (with
any trailing bytes) to the original value, for any partially accumulated
multiplier/value/index state. -/
theorem erl_go_spec : ∀ v b, v < 128 ^ b → 1 ≤ b → b ≤ 4 →
    ∃ ds, erl_go v b = some ds ∧
      ds.length = (if v < 128 then 1 else if v < 16384 then 2
                   else if v < 2097152 then 3 else 4) ∧
      ∀ tail mult val idx, 0 < mult → mult * 128 ^ (ds.length - 1) ≤ 2097152 →
        prl_go (ds ++ tail) mult val idx =
          .ok (.done (idx + ds.length) (val + v * mult)) := by
  intro v
  induction v using Nat.strong_induction_on with
  | _ v IH =>
    intro b hv hb1 hb4
    obtain ⟨b', rfl⟩ : ∃ b', b = b' + 1 := ⟨b - 1, by omega⟩
    by_cases h0 : v / 128 = 0
    · have hv128 : v < 128 := by omega
      refine ⟨[v % 128], ?_, ?_, ?_⟩
      · rw [erl_go, if_pos h0]
      · simp [hv128]
      · intro tail mult val idx h1 h2
        simp only [List.length_cons, List.length_nil, Nat.sub_self, pow_zero,
          mul_one] at h2
        rw [List.cons_append, prl_go_cons, if_neg (by omega),
          if_pos (by omega)]
        have : v % 128 = v := by omega
        rw [this]
        simp
        exact Or.inl hv128
    · have hv128 : 128 ≤ v := by omega
      have hb' : 1 ≤ b' := by
        by_contra hc
        have : b' = 0 := by omega
        subst this
        simp at hv
        omega
      have hlt : v / 128 < 128 ^ b' := by
        rw [pow_succ] at hv
        omega
      obtain ⟨ds', hds', hlen', hparse'⟩ :=
        IH (v / 128) (by omega) b' hlt hb' (by omega)
      refine ⟨(v % 128 + 128) :: ds', ?_, ?_, ?_⟩
      · rw [erl_go, if_neg h0, hds']
        rfl
      · rw [List.length_cons, hlen']
        have e1 : v / 128 < 128 ↔ v < 16384 := by omega
        have e2 : v / 128 < 16384 ↔ v < 2097152 := by omega
        have e3 : v / 128 < 2097152 ↔ v < 268435456 := by omega
        by_cases c1 : v < 16384
        · rw [if_pos (e1.mpr c1), if_neg (by omega), if_pos c1]
        · by_cases c2 : v < 2097152
          · rw [if_neg (by omega), if_pos (e2.mpr c2), if_neg (by omega),
              if_neg c1, if_pos c2]
          · have hv268 : v < 268435456 := by
              calc v < 128 ^ (b' + 1) := hv
              _ ≤ 128 ^ 4 := Nat.pow_le_pow_right (by omega) (by omega)
              _ = 268435456 := by norm_num
            rw [if_neg (by omega), if_neg (by omega), if_pos (by omega),
              if_neg c1, if_neg c2, if_neg (by omega)]
      · intro tail mult val idx h1 h2
        rw [List.length_cons] at h2
        have hpow : 128 ^ (ds'.length + 1 - 1) = 128 ^ (ds'.length - 1) * 128 := by
          have hd1 : 1 ≤ ds'.length := by
            rw [hlen']
            split
            · omega
            · split
              · omega
              · split <;> omega
          rw [Nat.add_sub_cancel]
          conv_lhs => rw [show ds'.length = (ds'.length - 1) + 1 by omega]
          rw [pow_succ]
        have hmle : mult ≤ mult * 128 ^ (ds'.length + 1 - 1) :=
          Nat.le_mul_of_pos_right mult (pow_pos (by omega) _)
        rw [List.cons_append, prl_go_cons, if_neg (by omega),
          if_neg (by omega)]
        have hmod : (v % 128 + 128) % 128 = v % 128 := by omega
        rw [hmod]
        rw [hparse' tail (mult * 128) (val + v % 128 * mult) (idx + 1)
          (by positivity)
          (by rw [mul_assoc, mul_comm (128 : Nat) (128 ^ (ds'.length - 1)), ← hpow]
              exact h2)]
        congr 2
        · rw [List.length_cons]
          omega
        · have : v = 128 * (v / 128) + v % 128 := (Nat.div_add_mod v 128).symm
          nlinarith [this]

/-- Above the digit budget `erl_go` hits the out-of-bounds write. -/
theorem erl_go_none : ∀ b v, 128 ^ b ≤ v → erl_go v b = none := by
  intro b
  induction b with
  | zero => intro v _; rfl
  | succ b IH =>
    intro v hv
    have hvpos : 128 ≤ v := by
      calc 128 = 128 ^ 1 := (pow_one 128).symm
      _ ≤ 128 ^ (b + 1) := Nat.pow_le_pow_right (by omega) (by omega)
      _ ≤ v := hv
    rw [erl_go, if_neg (by omega)]
    have : 128 ^ b ≤ v / 128 := by
      rw [Nat.le_div_iff_mul_le (by omega)]
      calc 128 ^ b * 128 = 128 ^ (b + 1) := (pow_succ 128 b).symm
      _ ≤ v := hv
    rw [IH (v / 128) this]
    rfl

/-- Round trip of the remaining-length codec for every encodable value, with
the canonical digit count, and with arbitrary trailing bytes. -/
theorem remaining_length_roundtrip (v : Nat) (tail : List Nat)
    (hv : v ≤ 268435455) :
    ∃ ds, encode_remaining_length v = some ds ∧
      ds.length = (if v < 128 then 1 else if v < 16384 then 2
                   else if v < 2097152 then 3 else 4) ∧
      parse_remaining_length (ds ++ tail) = .ok (.done ds.length v) := by
  obtain ⟨ds, h1, h2, h3⟩ := erl_go_spec v 4 (by norm_num; omega) (by omega) (by omega)
  refine ⟨ds, h1, h2, ?_⟩
  have hb : (1 : Nat) * 128 ^ (ds.length - 1) ≤ 2097152 := by
    rw [h2, one_mul]
    split
    · norm_num
    · split
      · norm_num
      · split <;> norm_num
  have := h3 tail 1 0 0 (by omega) hb
  rw [parse_remaining_length, this]
  simp

/-- Four consecutive bytes with the continuation bit set exhaust the
multiplier budget. -/
theorem parse_remaining_length_four_cont (b0 b1 b2 b3 : Nat) (rest : List Nat)
    (h0 : 128 ≤ b0 % 256) (h1 : 128 ≤ b1 % 256) (h2 : 128 ≤ b2 % 256)
    (h3 : 128 ≤ b3 % 256) :
    parse_remaining_length (b0 :: b1 :: b2 :: b3 :: rest) =
      .error .remainingLength := by
  rw [parse_remaining_length, prl_go_cons, if_neg (by omega), if_neg (by omega),
    prl_go_cons, if_neg (by omega), if_neg (by omega),
    prl_go_cons, if_neg (by omega), if_neg (by omega),
    prl_go_cons, if_neg (by omega), if_neg (by omega),
    prl_go.eq_def]
  rw [if_pos (by norm_num)]

/-- C2, counterexample to the claim as stated: for `v = 268435456` the result
of `encode_remaining_length` is not a `RemainingLength` error: the function
writes a fifth digit past its 4-byte buffer, an out-of-bounds panic
(modelled as `none`), so the composition with `parse_remaining_length` never
runs. -/
theorem C2_counterexample : encode_remaining_length 268435456 = none :=
  erl_go_none 4 268435456 (by norm_num)

/-- C2 (amended): for every `v ≤ 268435455`, `encode_remaining_length`
produces the canonical (shortest) base-128 continuation-bit digits and
`parse_remaining_length` parses them (with any trailing bytes) back to
`Complete((len, v))` with `len` the canonical digit count; an input of four
bytes that all have the continuation bit set is the `RemainingLength` error;
but for `v = 268435456` the encoder does not return a `RemainingLength`
error: it writes past its 4-byte buffer (an out-of-bounds panic, modelled as
`none`). -/
theorem C2_remaining_length_bijection :
    (∀ v tail, v ≤ 268435455 →
      ∃ ds, encode_remaining_length v = some ds ∧
        ds.length = (if v < 128 then 1 else if v < 16384 then 2
                     else if v < 2097152 then 3 else 4) ∧
        parse_remaining_length (ds ++ tail) = .ok (.done ds.length v)) ∧
    (∀ b0 b1 b2 b3 rest, 128 ≤ b0 % 256 → 128 ≤ b1 % 256 → 128 ≤ b2 % 256 →
      128 ≤ b3 % 256 →
      parse_remaining_length (b0 :: b1 :: b2 :: b3 :: rest) =
        .error .remainingLength) ∧
    encode_remaining_length 268435456 = none := by
  refine ⟨fun v tail hv => remaining_length_roundtrip v tail hv,
    fun b0 b1 b2 b3 rest h0 h1 h2 h3 =>
      parse_remaining_length_four_cont b0 b1 b2 b3 rest h0 h1 h2 h3,
    erl_go_none 4 268435456 (by norm_num)⟩

/-- C2, witness: the amended round trip evaluated at `v = 2097151` (the
3-digit boundary) and the continuation-bit error at `0xFF 0xFF 0xFF 0xFF`. -/
theorem C2_witness :
    (∃ ds, encode_remaining_length 2097151 = some ds ∧
      ds.length = 3 ∧
      parse_remaining_length (ds ++ [7]) = .ok (.done ds.length 2097151)) ∧
    parse_remaining_length [255, 255, 255, 255] = .error .remainingLength := by
  constructor
  · obtain ⟨ds, ha, hb, hc⟩ :=
      C2_remaining_length_bijection.1 2097151 [7] (by norm_num)
    refine ⟨ds, ha, ?_, hc⟩
    rw [hb]
    norm_num
  · exact C2_remaining_length_bijection.2.1 255 255 255 255 []
      (by norm_num) (by norm_num) (by norm_num) (by norm_num)

/-- C10: `encode_remaining_length` stays within its 4-byte buffer (returning
1 to 4 digits) exactly when `len ≤ 268435455`; the typed constructors bound
the remaining length only by `u32::MAX` (`ValueTooBig` beyond it), so a
`Packet::subscribe` with 89478486 empty topic filters is accepted with
`len = 268435460 > 268435455`, on which `FixedHeader::encoded_len` and
`FixedHeader::encode` (and hence `Packet::encode`) hit the out-of-bounds
write (modelled as `none`): `len ≤ 268435455` is a genuine unchecked
precondition. -/
theorem C10_remaining_length_precondition :
    (∀ v, (encode_remaining_length v).isSome ↔ v ≤ 268435455) ∧
    (∀ v ds, encode_remaining_length v = some ds →
      1 ≤ ds.length ∧ ds.length ≤ 4) ∧
    (∃ p, packet_subscribe 1
        (List.replicate 89478486 (([] : List Nat), QoS.atMostOnce)) = .ok p ∧
      268435455 < p.fixed_header.len ∧ p.fixed_header.len ≤ 4294967295 ∧
      fixed_header_encoded_len p.fixed_header = none ∧
      fixed_header_encode p.fixed_header = none ∧
      packet_encode p = none) ∧
    packet_subscribe 1
        (List.replicate 1431655766 (([] : List Nat), QoS.atMostOnce)) =
      .error .valueTooBig := by
  have hsome : ∀ v, v ≤ 268435455 → (encode_remaining_length v).isSome := by
    intro v hv
    obtain ⟨ds, h1, -, -⟩ := erl_go_spec v 4 (by norm_num; omega) (by omega) (by omega)
    rw [encode_remaining_length, h1]
    rfl
  have hnone : ∀ v, 268435455 < v → encode_remaining_length v = none :=
    fun v hv => erl_go_none 4 v (by norm_num; omega)
  have hlen : ∀ v ds, encode_remaining_length v = some ds →
      1 ≤ ds.length ∧ ds.length ≤ 4 := by
    intro v ds h
    by_cases hv : v ≤ 268435455
    · obtain ⟨ds', h1, h2, -⟩ := erl_go_spec v 4 (by norm_num; omega) (by omega) (by omega)
      rw [encode_remaining_length] at h
      rw [h1] at h
      obtain rfl : ds' = ds := by simpa using h
      rw [h2]
      split
      · omega
      · split
        · omega
        · split <;> omega
    · rw [hnone v (by omega)] at h
      exact absurd h (by simp)
  have hbig : subscribe_payload_encoded_len
      (.Encode (List.replicate 89478486 (([] : List Nat), QoS.atMostOnce)))
        = 268435458 := by
    rw [subscribe_payload_encoded_len, subscribe_topics, List.map_replicate,
      List.sum_const_nat]
    norm_num
  have hhuge : subscribe_payload_encoded_len
      (.Encode (List.replicate 1431655766 (([] : List Nat), QoS.atMostOnce)))
        = 4294967298 := by
    rw [subscribe_payload_encoded_len, subscribe_topics, List.map_replicate,
      List.sum_const_nat]
    norm_num
  refine ⟨fun v => ⟨?_, fun hv => hsome v hv⟩, hlen, ?_, ?_⟩
  · intro hs
    by_contra hv
    rw [hnone v (by omega)] at hs
    exact absurd hs (by simp)
  · have hx : ((some (VariableHeader.subscribe 1)).map
        variable_header_encoded_len).getD 0
      + payload_encoded_len (.subscribe (.Encode (List.replicate 89478486
          (([] : List Nat), QoS.atMostOnce)))) = 268435460 := by
      rw [show payload_encoded_len (.subscribe (.Encode (List.replicate 89478486
            (([] : List Nat), QoS.atMostOnce))))
          = subscribe_payload_encoded_len (.Encode (List.replicate 89478486
            (([] : List Nat), QoS.atMostOnce))) from rfl, hbig]
      rfl
    refine ⟨⟨⟨.subscribe, 2, 268435460⟩, some (.subscribe 1),
      .subscribe (.Encode (List.replicate 89478486
        (([] : List Nat), QoS.atMostOnce)))⟩, ?_, by norm_num,
      by norm_num, ?_, ?_, ?_⟩
    · rw [packet_subscribe, packet_mk, hx]
      rw [if_neg (by norm_num)]
    · rw [fixed_header_encoded_len]
      rw [hnone 268435460 (by norm_num)]
      rfl
    · rw [fixed_header_encode]
      rw [hnone 268435460 (by norm_num)]
      rfl
    · rw [packet_encode.eq_def, fixed_header_encode]
      rw [hnone 268435460 (by norm_num)]
      rfl
  · have hx : ((some (VariableHeader.subscribe 1)).map
        variable_header_encoded_len).getD 0
      + payload_encoded_len (.subscribe (.Encode (List.replicate 1431655766
          (([] : List Nat), QoS.atMostOnce)))) = 4294967300 := by
      rw [show payload_encoded_len (.subscribe (.Encode (List.replicate 1431655766
            (([] : List Nat), QoS.atMostOnce))))
          = subscribe_payload_encoded_len (.Encode (List.replicate 1431655766
            (([] : List Nat), QoS.atMostOnce))) from rfl, hhuge]
      rfl
    rw [packet_subscribe, packet_mk, hx]
    rw [if_pos (by norm_num)]

/-- C10, witness: the `isSome` bound and digit-count bounds evaluated at the
boundary value `268435455`. -/
theorem C10_witness :
    (encode_remaining_length 268435455).isSome ∧
    1 ≤ ([255, 255, 255, 127] : List Nat).length ∧
    ([255, 255, 255, 127] : List Nat).length ≤ 4 := by
  refine ⟨(C10_remaining_length_precondition.1 268435455).mpr (by norm_num),
    C10_remaining_length_precondition.2.1 268435455 [255, 255, 255, 127] ?_⟩
  rfl

/-! ## Lemmas: string codec -/

/-- `parse_u16` on a buffer of at least two bytes. -/
theorem parse_u16_cons (b0 b1 : Nat) (rest : List Nat) :
    parse_u16 (b0 :: b1 :: rest) = .ok (.done 2 (b0 * 256 + b1)) := rfl

/-- Characterization of `parse_string` on a buffer with a full length
prefix.  (For a zero-length string the source skips `str::from_utf8`; that
collapses into the same shape because `utf8chars [] = some []`.) -/
theorem parse_string_cons (b0 b1 : Nat) (rest : List Nat) :
    parse_string (b0 :: b1 :: rest) =
      (if rest.length < b0 * 256 + b1 then
        .ok (.more (b0 * 256 + b1 - rest.length))
      else
        match utf8Chars (rest.take (b0 * 256 + b1)) with
        | none => .error .utf8
        | some cs =>
          if cs.contains 0 then .error .utf8
          else .ok (.done (2 + (b0 * 256 + b1)) (rest.take (b0 * 256 + b1)))) := by
  rw [parse_string, rread, List.drop_zero, parse_u16_cons]
  show (if 0 < b0 * 256 + b1 - min ((b0 :: b1 :: rest).length - (0 + 2)) (b0 * 256 + b1) then
        (.ok (.more (b0 * 256 + b1 - min ((b0 :: b1 :: rest).length - (0 + 2)) (b0 * 256 + b1))) : Parsed (List Nat))
      else
        match (if 0 < b0 * 256 + b1 then utf8Chars (((b0 :: b1 :: rest).drop 2).take (b0 * 256 + b1)) else some []) with
        | none => .error .utf8
        | some cs =>
          if cs.contains 0 then .error .utf8
          else .ok (.done (2 + (b0 * 256 + b1)) (((b0 :: b1 :: rest).drop 2).take (b0 * 256 + b1)))) = _
  rw [show (b0 :: b1 :: rest).length - (0 + 2) = rest.length from rfl]
  rw [show List.drop 2 (b0 :: b1 :: rest) = rest from rfl]
  by_cases h : rest.length < b0 * 256 + b1
  · rw [if_pos (by omega), if_pos h, Nat.min_eq_left (Nat.le_of_lt h)]
  · rw [if_neg (by omega), if_neg h]
    by_cases h0 : 0 < b0 * 256 + b1
    · rw [if_pos h0]
    · rw [if_neg h0]
      rw [show b0 * 256 + b1 = 0 from by omega, List.take_zero,
        show utf8Chars [] = some [] from rfl]

/-! ## C5: fixed-header flag validation table -/

set_option maxRecDepth 8192 in
/-- C5: byte 0 of the fixed header: a high nibble of 0 or 15 is a
`PacketType` error; for the ten `ZERO_TYPES` the low nibble must be exactly
`0b0000` and for the three `ONE_TYPES` exactly `0b0010`, any deviation being
a `PacketFlag` error; for Publish (high nibble 3) all 16 low nibbles are
accepted at this stage; in particular `0b0001_0001` fails and `0b0001_0000`
succeeds. -/
theorem C5_flag_table :
    (∀ b, b < 256 → (b / 16 = 0 ∨ b / 16 = 15) →
      parse_packet_type b = .error .packetType) ∧
    (∀ b, b < 256 → ∀ t, t ∈ zero_types → b / 16 = packet_type_to_u8 t →
      parse_packet_type b =
        (if b % 16 = 0 then .ok (t, 0) else .error .packetFlag)) ∧
    (∀ b, b < 256 → ∀ t, t ∈ one_types → b / 16 = packet_type_to_u8 t →
      parse_packet_type b =
        (if b % 16 = 2 then .ok (t, 2) else .error .packetFlag)) ∧
    (∀ f, f < 16 → parse_packet_type (48 + f) = .ok (.publish, f)) ∧
    parse_packet_type 17 = .error .packetFlag ∧
    parse_packet_type 16 = .ok (.connect, 0) := by
  refine ⟨?_, ?_, ?_, ?_, by decide, by decide⟩
  · decide
  · decide
  · decide
  · decide

/-- C5, witness: the table evaluated at `0xD1` (Pingresp with a bad flag),
`0x92` (Suback, a zero-type, with low nibble 2), `0x62` (Pubrel with its
required flag), `0x3D` (Publish with flags 13) and `0xF0` (nibble 15). -/
theorem C5_witness :
    parse_packet_type 209 = .error .packetFlag ∧
    parse_packet_type 146 = .error .packetFlag ∧
    parse_packet_type 98 = .ok (.pubrel, 2) ∧
    parse_packet_type 61 = .ok (.publish, 13) ∧
    parse_packet_type 240 = .error .packetType := by
  refine ⟨?_, ?_, ?_, ?_, ?_⟩
  · have := C5_flag_table.2.1 209 (by norm_num) .pingresp (by decide) (by decide)
    rw [this]
    norm_num
  · have := C5_flag_table.2.1 146 (by norm_num) .suback (by decide) (by decide)
    rw [this]
    norm_num
  · have := C5_flag_table.2.2.1 98 (by norm_num) .pubrel (by decide) (by decide)
    rw [this]
    norm_num
  · have := C5_flag_table.2.2.2.1 13 (by norm_num)
    norm_num at this
    exact this
  · exact C5_flag_table.1 240 (by norm_num) (Or.inr (by norm_num))

/-! ## C6: string codec policy -/

/-- C6: `parse_string` fails with `Utf8` whenever the length-prefixed bytes
are present but are not a well-formed MQTT string (invalid UTF-8, or the
decoded string contains `U+0000`); it returns `Complete((2, ""))` for a
length prefix of 0; and `encode_string` fails with `ValueTooBig` for every
string whose byte length exceeds 65535. -/
theorem C6_string_policy :
    (∀ b0 b1 rest, b0 * 256 + b1 ≤ rest.length →
      good_string (rest.take (b0 * 256 + b1)) = false →
      parse_string (b0 :: b1 :: rest) = .error .utf8) ∧
    (∀ rest, parse_string (0 :: 0 :: rest) = .ok (.done 2 [])) ∧
    (∀ s, 65535 < s.length → encode_string s = .error .valueTooBig) := by
  refine ⟨?_, ?_, ?_⟩
  · intro b0 b1 rest hlen hbad
    rw [parse_string_cons, if_neg (by omega)]
    unfold good_string at hbad
    cases heq : utf8Chars (rest.take (b0 * 256 + b1)) with
    | none => rfl
    | some cs =>
      rw [heq] at hbad
      have hbad' : cs.contains 0 = true := by
        simpa using hbad
      show (if cs.contains 0 then (.error .utf8 : Parsed (List Nat))
        else .ok (.done (2 + (b0 * 256 + b1))
          (rest.take (b0 * 256 + b1)))) = .error .utf8
      rw [if_pos hbad']
  · intro rest
    rw [parse_string_cons, if_neg (by omega),
      show (0 * 256 + 0 : Nat) = 0 from rfl, List.take_zero,
      show utf8Chars [] = some [] from rfl]
    rfl
  · intro s hs
    rw [encode_string, if_pos hs]

/-- C6, witness: the `Utf8` failure on the NUL byte string `[0x00]`, on the
invalid UTF-8 string `[0xC0]`, the empty-string success with trailing bytes,
and `ValueTooBig` on a 65536-byte string. -/
theorem C6_witness :
    parse_string [0, 1, 0] = .error .utf8 ∧
    parse_string [0, 1, 192, 5] = .error .utf8 ∧
    parse_string [0, 0, 9, 9] = .ok (.done 2 []) ∧
    encode_string (List.replicate 65536 97) = .error .valueTooBig := by
  refine ⟨C6_string_policy.1 0 1 [0] (by norm_num) (by decide),
    C6_string_policy.1 0 1 [192, 5] (by norm_num) (by decide),
    C6_string_policy.2.1 [9, 9],
    C6_string_policy.2.2 (List.replicate 65536 97) ?_⟩
  rw [List.length_replicate]
  norm_num

/-! ## C8: Suback return-code validation -/

/-- The Suback validation fold is `Ok` exactly when every byte is a valid
return code. -/
theorem suback_validate_eq (bs : List Nat) :
    suback_validate bs =
      (if bs.all return_code_valid then .ok () else .error ()) := by
  have herr : ∀ l : List Nat, l.foldl suback_step (.error ()) = .error () := by
    intro l
    induction l with
    | nil => rfl
    | cons b rest IH =>
      rw [List.foldl_cons, show suback_step (.error ()) b = .error () from rfl, IH]
  induction bs with
  | nil => rfl
  | cons b rest IH =>
    rw [suback_validate, List.foldl_cons]
    by_cases hb : return_code_valid b
    · rw [show suback_step (.ok ()) b = if return_code_valid b then .ok ()
          else .error () from rfl, if_pos hb]
      rw [show (List.foldl suback_step (.ok ()) rest : Except Unit Unit)
          = suback_validate rest from rfl, IH]
      rw [List.all_cons, hb]
      rfl
    · rw [show suback_step (.ok ()) b = if return_code_valid b then .ok ()
          else .error () from rfl, if_neg hb, herr]
      rw [List.all_cons]
      rw [show return_code_valid b = false from by
        revert hb; cases return_code_valid b <;> simp]
      rfl

/-- C8, counterexample to the claim as stated: byte `0x03` has bit 7 clear
and bits 0-1 equal to `0b11`, which is not a valid QoS
(`QoS::try_from(3)` is `BadPattern`), yet `ReturnCode::try_from` accepts it
and `Suback::decode` completes on `[0x03]`. -/
theorem C8_counterexample :
    qos_try_from 3 = .error .badPattern ∧
    return_code_valid 3 = true ∧
    suback_payload_decode [3] = .ok (.done 1 ⟨[3]⟩) := by
  refine ⟨rfl, rfl, ?_⟩
  rfl

set_option maxRecDepth 8192 in
/-- C8 (amended): a Suback return-code byte is accepted exactly when it is
`0x00-0x03` or `0x80`: bit 7 set requires all other bits clear; bit 7 clear
requires only the reserved bits 2-6 (`0b0111_1100`) clear, the success bits
0-1 being unconstrained (pattern `0b11` is accepted even though it is not a
valid QoS); any byte with a reserved bit set - in particular `0x83` - is
rejected; `Suback::decode` validates every byte and returns
`InvalidSubackReturnCode` when any byte is invalid, else `Complete` over the
whole range reinterpreted as return codes. -/
theorem C8_suback_return_codes :
    (∀ b, b < 256 → (return_code_valid b = true ↔
      (b = 0 ∨ b = 1 ∨ b = 2 ∨ b = 3 ∨ b = 128))) ∧
    (∀ b, b < 256 → b / 4 % 32 ≠ 0 → return_code_valid b = false) ∧
    return_code_valid 131 = false ∧
    (∀ bs, bs.all return_code_valid = true →
      suback_payload_decode bs = .ok (.done bs.length ⟨bs⟩)) ∧
    (∀ bs, bs.all return_code_valid = false →
      suback_payload_decode bs = .error .invalidSubackReturnCode) := by
  refine ⟨by decide, by decide, by decide, ?_, ?_⟩
  · intro bs h
    rw [suback_payload_decode, suback_validate_eq, if_pos h]
  · intro bs h
    rw [suback_payload_decode, suback_validate_eq, if_neg (by rw [h]; simp)]

/-- C8, witness: the spec scenario `[0x80, 0x02, 0x01, 0x00]` decodes as four
return codes, and `[0x83]` is rejected. -/
theorem C8_witness :
    suback_payload_decode [128, 2, 1, 0] =
      .ok (.done ([128, 2, 1, 0] : List Nat).length ⟨[128, 2, 1, 0]⟩) ∧
    suback_payload_decode [131] = .error .invalidSubackReturnCode ∧
    (return_code_valid 2 = true ↔
      ((2 : Nat) = 0 ∨ (2 : Nat) = 1 ∨ (2 : Nat) = 2 ∨ (2 : Nat) = 3 ∨
        (2 : Nat) = 128)) := by
  exact ⟨C8_suback_return_codes.2.2.2.1 [128, 2, 1, 0] (by decide),
    C8_suback_return_codes.2.2.2.2 [131] (by decide),
    C8_suback_return_codes.1 2 (by norm_num)⟩

/-! ## C4: the payload-length subtraction underflows -/

/-- C4: `Packet::decode` is not total.  On the input below the fixed header
declares remaining length 0, yet `VariableHeader::decode` parses a complete
10-byte Connect variable header from the bytes that follow, so the `usize`
computation `fixed_header.len() as usize - variable_header_consumed` at the
third checkpoint is `0 - 10`: an integer underflow (a panic in a debug
build), modelled as `none`. -/
theorem C4_underflow_panic :
    packet_decode [16, 0, 0, 4, 77, 81, 84, 84, 4, 0, 0, 10] = none := by
  rfl

/-! ## C7: Connect payloads are not decoded structurally -/

/-- C7: when `Packet::decode` completes a Connect packet the payload is the
raw byte slice, not the structured Connect payload: `Payload::decode` has no
Connect arm (it is commented out with a TODO in `src/payload/mod.rs`), so
the 5-byte client-id region below comes back as `Payload::Bytes`. -/
theorem C7_connect_payload_not_structured :
    packet_decode [16, 15, 0, 4, 77, 81, 84, 84, 4, 0, 0, 60, 0, 3, 97, 98, 99] =
      some (.ok (.done 17 ⟨⟨.connect, 0, 15⟩,
        some (.connect ⟨[77, 81, 84, 84], 0, 60⟩),
        .bytes [0, 3, 97, 98, 99]⟩)) ∧
    payload_decode .connect [0, 3, 97, 98, 99] = none := by
  exact ⟨rfl, rfl⟩

/-! ## Lemmas: decoders applied to encoder output -/

/-- `encode_string` on an in-range string, with the two prefix bytes spelled
out. -/
theorem encode_string_spec (s : List Nat) (h : s.length ≤ 65535) :
    encode_string s = .ok (s.length / 256 :: s.length % 256 :: s) := by
  rw [encode_string, if_neg (by omega)]
  rfl

/-- `encode_bytes` on an in-range byte string. -/
theorem encode_bytes_spec (s : List Nat) (h : s.length ≤ 65535) :
    encode_bytes s = .ok (s.length / 256 :: s.length % 256 :: s) := by
  rw [encode_bytes, if_neg (by omega)]
  rfl

/-- `parse_string` inverts `encode_string` on well-formed MQTT strings, with
any trailing bytes. -/
theorem parse_string_encode (s : List Nat) (tail : List Nat)
    (hgood : good_string s = true) :
    parse_string (s.length / 256 :: s.length % 256 :: (s ++ tail)) =
      .ok (.done (2 + s.length) s) := by
  rw [parse_string_cons]
  rw [show s.length / 256 * 256 + s.length % 256 = s.length from by omega]
  rw [if_neg (by simp)]
  rw [List.take_left]
  unfold good_string at hgood
  cases heq : utf8Chars s with
  | none => rw [heq] at hgood; exact absurd hgood (by simp)
  | some cs =>
    rw [heq] at hgood
    show (if cs.contains 0 then (.error .utf8 : Parsed (List Nat))
      else .ok (.done (2 + s.length) s)) = .ok (.done (2 + s.length) s)
    rw [if_neg (by simp at hgood; simp [hgood])]

/-- `parse_bytes` inverts `encode_bytes`, with any trailing bytes. -/
theorem parse_bytes_encode (s : List Nat) (tail : List Nat) :
    parse_bytes (s.length / 256 :: s.length % 256 :: (s ++ tail)) =
      .ok (.done (2 + s.length) s) := by
  rw [parse_bytes, rread, List.drop_zero, parse_u16_cons]
  show (if 0 < s.length / 256 * 256 + s.length % 256 -
      min ((s.length / 256 :: s.length % 256 :: (s ++ tail)).length - (0 + 2))
        (s.length / 256 * 256 + s.length % 256) then
      (.ok (.more (s.length / 256 * 256 + s.length % 256 -
        min ((s.length / 256 :: s.length % 256 :: (s ++ tail)).length - (0 + 2))
          (s.length / 256 * 256 + s.length % 256))) : Parsed (List Nat))
    else .ok (.done (0 + 2 + (s.length / 256 * 256 + s.length % 256))
      (((s.length / 256 :: s.length % 256 :: (s ++ tail)).drop (0 + 2)).take
        (s.length / 256 * 256 + s.length % 256)))) = _
  rw [show s.length / 256 * 256 + s.length % 256 = s.length from by omega]
  rw [show (s.length / 256 :: s.length % 256 :: (s ++ tail)).length - (0 + 2)
    = (s ++ tail).length from rfl]
  rw [show (s.length / 256 :: s.length % 256 :: (s ++ tail)).drop (0 + 2)
    = s ++ tail from rfl]
  rw [if_neg (by simp), List.take_left]

/-- `QoS::try_from` inverts `u8::from(QoS)`. -/
theorem qos_roundtrip (q : QoS) : qos_try_from (qos_to_u8 q) = .ok q := by
  cases q <;> rfl

/-- `PacketIdentifier::decode` inverts `encode_u16`, with any trailing
bytes. -/
theorem packet_identifier_decode_encode (i : Nat) (tail : List Nat) :
    packet_identifier_decode (i / 256 :: i % 256 :: tail) = .ok (.done 2 i) := by
  rw [packet_identifier_decode, rread, List.drop_zero, parse_u16_cons]
  show Except.ok (Status.done (0 + 2) (i / 256 * 256 + i % 256)) = _
  rw [show i / 256 * 256 + i % 256 = i from by omega]

/-- Dropping a 2-byte prefix plus an embedded list reaches the trailing
bytes. -/
theorem drop_two_append (a b : Nat) (xs rest : List Nat) :
    (a :: b :: (xs ++ rest)).drop (2 + xs.length) = rest := by
  rw [show 2 + xs.length = xs.length + 1 + 1 from by omega,
    List.drop_succ_cons, List.drop_succ_cons, List.drop_left]

/-- `Connect::decode` (variable header) inverts `Connect::encode`, with any
trailing bytes. -/
theorem connect_vh_decode_encode (flags ka : Nat) (tail : List Nat)
    (hwq : flags / 8 % 4 ≠ 3) :
    connect_vh_decode
        (0 :: 4 :: 77 :: 81 :: 84 :: 84 :: 4 :: flags :: ka / 256 :: ka % 256 :: tail) =
      .ok (.done 10 ⟨[77, 81, 84, 84], flags, ka⟩) := by
  have hps : parse_string
      ((0:Nat) :: 4 :: 77 :: 81 :: 84 :: 84 :: 4 :: flags :: ka / 256 :: ka % 256 :: tail) =
      .ok (.done 6 [77, 81, 84, 84]) :=
    parse_string_encode [77, 81, 84, 84]
      (4 :: flags :: ka / 256 :: ka % 256 :: tail) (by decide)
  obtain ⟨q, hq⟩ : ∃ q, connect_will_qos flags = .ok q := by
    have h4 : flags / 8 % 4 = 0 ∨ flags / 8 % 4 = 1 ∨ flags / 8 % 4 = 2 := by omega
    rcases h4 with h | h | h <;>
      exact ⟨_, by rw [connect_will_qos, h]; rfl⟩
  simp only [connect_vh_decode, rread, List.drop_zero, hps,
    show ((0:Nat) :: 4 :: 77 :: 81 :: 84 :: 84 :: 4 :: flags :: ka / 256 :: ka % 256 :: tail).drop (0 + 6)
      = 4 :: flags :: ka / 256 :: ka % 256 :: tail from rfl,
    show ((0:Nat) :: 4 :: 77 :: 81 :: 84 :: 84 :: 4 :: flags :: ka / 256 :: ka % 256 :: tail).drop (0 + 6 + 1)
      = flags :: ka / 256 :: ka % 256 :: tail from rfl,
    show ((0:Nat) :: 4 :: 77 :: 81 :: 84 :: 84 :: 4 :: flags :: ka / 256 :: ka % 256 :: tail).drop (0 + 6 + 1 + 1)
      = ka / 256 :: ka % 256 :: tail from rfl,
    parse_u8, parse_u16_cons, hq]
  norm_num
  rw [show ka / 256 * 256 + ka % 256 = ka from by omega]

/-- `Publish::decode` (variable header) inverts `Publish::encode` when the
flags carry a nonzero QoS and a packet identifier is present. -/
theorem publish_vh_decode_encode_pid (flags : Nat) (topic : List Nat)
    (i : Nat) (tail : List Nat)
    (hq : flags / 2 % 4 = 1 ∨ flags / 2 % 4 = 2)
    (hgood : good_string topic = true) :
    publish_vh_decode flags
        (topic.length / 256 :: topic.length % 256 ::
          (topic ++ (i / 256 :: i % 256 :: tail))) =
      .ok (.done (2 + topic.length + 2) ⟨topic, some i⟩) := by
  have hps := parse_string_encode topic (i / 256 :: i % 256 :: tail) hgood
  have hdrop : (topic.length / 256 :: topic.length % 256 ::
      (topic ++ (i / 256 :: i % 256 :: tail))).drop (0 + (2 + topic.length))
      = i / 256 :: i % 256 :: tail := by
    rw [show 0 + (2 + topic.length) = 2 + topic.length from by omega]
    exact drop_two_append _ _ _ _
  obtain ⟨qv, hqv, hne⟩ : ∃ qv, publish_flags_qos flags = .ok qv ∧
      qv ≠ QoS.atMostOnce := by
    rcases hq with h | h
    · exact ⟨.atLeastOnce, by rw [publish_flags_qos, h]; rfl, by simp⟩
    · exact ⟨.exactlyOnce, by rw [publish_flags_qos, h]; rfl, by simp⟩
  simp only [publish_vh_decode, hqv, rread, List.drop_zero, hps, hdrop,
    parse_u16_cons, if_pos hne]
  rw [show i / 256 * 256 + i % 256 = i from by omega]
  norm_num

/-- `Publish::decode` (variable header) inverts `Publish::encode` when the
flags carry QoS 0 and no packet identifier is present. -/
theorem publish_vh_decode_encode_nopid (flags : Nat) (topic : List Nat)
    (tail : List Nat)
    (hq : flags / 2 % 4 = 0)
    (hgood : good_string topic = true) :
    publish_vh_decode flags
        (topic.length / 256 :: topic.length % 256 :: (topic ++ tail)) =
      .ok (.done (2 + topic.length) ⟨topic, none⟩) := by
  have hps := parse_string_encode topic tail hgood
  have hqv : publish_flags_qos flags = .ok .atMostOnce := by
    rw [publish_flags_qos, hq]
    rfl
  simp only [publish_vh_decode, hqv, rread, List.drop_zero, hps]
  rw [if_neg (by simp)]
  norm_num

/-! ## Lemmas: consumed-byte counts of completed parses -/

/-- A completed `parse_u8` consumed exactly 1 byte of a non-empty input. -/
theorem parse_u8_done_spec {xs : List Nat} {c v : Nat}
    (h : parse_u8 xs = .ok (.done c v)) : c = 1 ∧ 1 ≤ xs.length := by
  match xs with
  | [] => exact absurd h (by rw [show parse_u8 [] = .ok (.more 1) from rfl]; simp)
  | b :: t =>
    rw [show parse_u8 (b :: t) = .ok (.done 1 b) from rfl] at h
    simp only [Except.ok.injEq, Status.done.injEq] at h
    simp [← h.1]

/-- A completed `parse_u16` consumed exactly 2 bytes of an input of at least
2 bytes. -/
theorem parse_u16_done_spec {xs : List Nat} {c v : Nat}
    (h : parse_u16 xs = .ok (.done c v)) : c = 2 ∧ 2 ≤ xs.length := by
  match xs with
  | [] => exact absurd h (by rw [show parse_u16 [] = .ok (.more 2) from rfl]; simp)
  | [b] => exact absurd h (by rw [show parse_u16 [b] = .ok (.more 1) from rfl]; simp)
  | b0 :: b1 :: t =>
    rw [parse_u16_cons] at h
    simp only [Except.ok.injEq, Status.done.injEq] at h
    simp only [List.length_cons]
    omega

/-- A completed `parse_string` consumed `2 + length` bytes, all within the
input. -/
theorem parse_string_done_spec {bytes : List Nat} {c : Nat} {v : List Nat}
    (h : parse_string bytes = .ok (.done c v)) :
    c = 2 + v.length ∧ c ≤ bytes.length := by
  match bytes with
  | [] =>
    exact absurd h (by
      rw [show parse_string [] = .ok (.more 2) from rfl]
      simp)
  | [b] =>
    exact absurd h (by
      rw [show parse_string [b] = .ok (.more 1) from rfl]
      simp)
  | b0 :: b1 :: rest =>
    rw [parse_string_cons] at h
    split at h
    · exact absurd h (by simp)
    · rename_i hlen
      split at h
      · exact absurd h (by simp)
      · rename_i cs heq
        split at h
        · exact absurd h (by simp)
        · simp only [Except.ok.injEq, Status.done.injEq] at h
          obtain ⟨hc, hv⟩ := h
          subst hv
          rw [← hc]
          constructor
          · rw [List.length_take]
            omega
          · simp only [List.length_cons]
            omega

/-- A completed `parse_subscription` consumed `2 + topic length + 1` bytes,
all within the input. -/
theorem parse_subscription_done_spec {bytes : List Nat} {o : Nat}
    {item : List Nat × QoS} (h : parse_subscription bytes = .ok (.done o item)) :
    o = 2 + item.1.length + 1 ∧ o ≤ bytes.length := by
  unfold parse_subscription at h
  split at h
  · exact absurd h (by simp)
  · exact absurd h (by simp)
  · rename_i o1 topic hps
    split at h
    · exact absurd h (by simp)
    · exact absurd h (by simp)
    · rename_i o2 q hpu
      split at h
      · exact absurd h (by simp)
      · rename_i qv hqv
        simp only [Except.ok.injEq, Status.done.injEq] at h
        obtain ⟨ho, hitem⟩ := h
        subst hitem
        obtain ⟨hc1, hle1⟩ := parse_string_done_spec hps
        obtain ⟨hc2, hle2⟩ := parse_u8_done_spec hpu
        rw [List.length_drop] at hle2
        constructor
        · simp only [← ho, hc1, hc2]
        · omega

/-! ## Lemmas: the Subscribe validation loop -/

/-- The step counter of `subscribe_validate_go` is irrelevant as long as it
is at least the suffix length. -/
theorem subscribe_validate_go_irrel : ∀ n, ∀ l : List Nat, l.length ≤ n →
    ∀ fuel fuel', l.length ≤ fuel → l.length ≤ fuel' →
    subscribe_validate_go fuel l = subscribe_validate_go fuel' l := by
  intro n
  induction n with
  | zero =>
    intro l hl fuel fuel' _ _
    have : l = [] := List.length_eq_zero.mp (by omega)
    subst this
    cases fuel <;> cases fuel' <;> rfl
  | succ n IH =>
    intro l hl fuel fuel' hf hf'
    match l with
    | [] => cases fuel <;> cases fuel' <;> rfl
    | x :: xs =>
      simp only [List.length_cons] at hl hf hf'
      obtain ⟨f, rfl⟩ : ∃ f, fuel = f + 1 := ⟨fuel - 1, by omega⟩
      obtain ⟨f', rfl⟩ : ∃ f', fuel' = f' + 1 := ⟨fuel' - 1, by omega⟩
      show (match parse_subscription (x :: xs) with
        | .error e => some e
        | .ok (.more _) => some DecodeError.invalidLength
        | .ok (.done o _) => subscribe_validate_go f ((x :: xs).drop o)
        : Option DecodeError) =
        (match parse_subscription (x :: xs) with
        | .error e => some e
        | .ok (.more _) => some DecodeError.invalidLength
        | .ok (.done o _) => subscribe_validate_go f' ((x :: xs).drop o)
        : Option DecodeError)
      cases hp : parse_subscription (x :: xs) with
      | error e => rfl
      | ok st =>
        cases st with
        | more m => rfl
        | done o item =>
          obtain ⟨ho, hole⟩ := parse_subscription_done_spec hp
          have hlen : ((x :: xs).drop o).length = xs.length + 1 - o := by
            rw [List.length_drop, List.length_cons]
          exact IH _ (by omega) f f' (by omega) (by omega)

/-- Unfolding of `subscribe_validate` on a non-empty suffix. -/
theorem subscribe_validate_cons (x : Nat) (xs : List Nat) :
    subscribe_validate (x :: xs) =
      (match parse_subscription (x :: xs) with
      | .error e => some e
      | .ok (.more _) => some DecodeError.invalidLength
      | .ok (.done o _) => subscribe_validate ((x :: xs).drop o)
      : Option DecodeError) := by
  rw [subscribe_validate]
  show (match parse_subscription (x :: xs) with
    | .error e => some e
    | .ok (.more _) => some DecodeError.invalidLength
    | .ok (.done o _) => subscribe_validate_go xs.length ((x :: xs).drop o)
    : Option DecodeError) = _
  cases hp : parse_subscription (x :: xs) with
  | error e => rfl
  | ok st =>
    cases st with
    | more m => rfl
    | done o item =>
      obtain ⟨ho, hole⟩ := parse_subscription_done_spec hp
      show subscribe_validate_go xs.length ((x :: xs).drop o) =
        subscribe_validate ((x :: xs).drop o)
      rw [subscribe_validate]
      exact subscribe_validate_go_irrel ((x :: xs).drop o).length _ le_rfl _ _
        (by rw [List.length_drop, List.length_cons]; omega) le_rfl

/-- The step counter of `sub_items_go` is irrelevant as long as it is at
least the suffix length. -/
theorem sub_items_go_irrel : ∀ n, ∀ l : List Nat, l.length ≤ n →
    ∀ fuel fuel', l.length ≤ fuel → l.length ≤ fuel' →
    sub_items_go fuel l = sub_items_go fuel' l := by
  intro n
  induction n with
  | zero =>
    intro l hl fuel fuel' _ _
    have : l = [] := List.length_eq_zero.mp (by omega)
    subst this
    cases fuel <;> cases fuel' <;> rfl
  | succ n IH =>
    intro l hl fuel fuel' hf hf'
    match l with
    | [] => cases fuel <;> cases fuel' <;> rfl
    | x :: xs =>
      simp only [List.length_cons] at hl hf hf'
      obtain ⟨f, rfl⟩ : ∃ f, fuel = f + 1 := ⟨fuel - 1, by omega⟩
      obtain ⟨f', rfl⟩ : ∃ f', fuel' = f' + 1 := ⟨fuel' - 1, by omega⟩
      show (match parse_subscription (x :: xs) with
        | .ok (.done o item) => item :: sub_items_go f ((x :: xs).drop o)
        | _ => []
        : List (List Nat × QoS)) =
        (match parse_subscription (x :: xs) with
        | .ok (.done o item) => item :: sub_items_go f' ((x :: xs).drop o)
        | _ => []
        : List (List Nat × QoS))
      cases hp : parse_subscription (x :: xs) with
      | error e => rfl
      | ok st =>
        cases st with
        | more m => rfl
        | done o item =>
          obtain ⟨ho, hole⟩ := parse_subscription_done_spec hp
          have hdl : ((x :: xs).drop o).length = xs.length + 1 - o := by
            rw [List.length_drop, List.length_cons]
          show item :: sub_items_go f ((x :: xs).drop o) =
            item :: sub_items_go f' ((x :: xs).drop o)
          rw [IH ((x :: xs).drop o) (by omega) f f' (by omega) (by omega)]

/-- Dropping an embedded list plus one byte reaches the trailing bytes. -/
theorem drop_len_succ_append (xs : List Nat) (q : Nat) (rest : List Nat) :
    (xs ++ (q :: rest)).drop (xs.length + 1) = rest := by
  rw [show xs ++ (q :: rest) = (xs ++ [q]) ++ rest from by simp,
    show xs.length + 1 = (xs ++ [q]).length from by simp,
    List.drop_left]

/-- `parse_subscription` inverts one entry of `Subscribe::encode`, with any
trailing bytes. -/
theorem parse_subscription_encode (t : List Nat) (q : QoS) (rest : List Nat)
    (hgood : good_string t = true) :
    parse_subscription
        (t.length / 256 :: t.length % 256 :: (t ++ (qos_to_u8 q :: rest))) =
      .ok (.done (2 + t.length + 1) (t, q)) := by
  simp only [parse_subscription, parse_string_encode t (qos_to_u8 q :: rest) hgood,
    drop_two_append, parse_u8, qos_roundtrip]

/-- The encoded form of a subscription list, one entry unfolded. -/
theorem subscriptions_bytes_cons (t : List Nat × QoS)
    (ts : List (List Nat × QoS)) :
    subscriptions_bytes (t :: ts) =
      t.1.length / 256 :: t.1.length % 256 ::
        (t.1 ++ (qos_to_u8 t.2 :: subscriptions_bytes ts)) := by
  rw [subscriptions_bytes, List.map_cons, List.flatten_cons, subscription_bytes]
  simp [subscriptions_bytes]

/-- The Subscribe validation loop accepts every encoded topic list whose
topics are well-formed MQTT strings. -/
theorem subscribe_validate_encode : ∀ topics : List (List Nat × QoS),
    (∀ t ∈ topics, good_string t.1 = true) →
    subscribe_validate (subscriptions_bytes topics) = none := by
  intro topics
  induction topics with
  | nil => intro _; rfl
  | cons t ts IH =>
    intro hgood
    rw [subscriptions_bytes_cons, subscribe_validate_cons]
    have hps := parse_subscription_encode t.1 t.2 (subscriptions_bytes ts)
      (hgood t (by simp))
    rw [hps]
    show subscribe_validate
      ((t.1.length / 256 :: t.1.length % 256 ::
        (t.1 ++ (qos_to_u8 t.2 :: subscriptions_bytes ts))).drop
          (2 + t.1.length + 1)) = none
    rw [show (2 + t.1.length + 1) = t.1.length + 1 + 1 + 1 from by omega,
      List.drop_succ_cons, List.drop_succ_cons,
      drop_len_succ_append]
    exact IH (fun x hx => hgood x (by simp [hx]))

/-- On a validated Subscribe payload the iterator's summed per-entry encoded
lengths equal the byte length of the payload. -/
theorem sub_items_sum : ∀ n, ∀ bs : List Nat, bs.length ≤ n →
    subscribe_validate bs = none →
    ((sub_items_go bs.length bs).map (fun t => 2 + t.1.length + 1)).sum
      = bs.length := by
  intro n
  induction n with
  | zero =>
    intro bs hn _
    have : bs = [] := List.length_eq_zero.mp (by omega)
    subst this
    rfl
  | succ n IH =>
    intro bs hn hval
    match bs with
    | [] => rfl
    | x :: xs =>
      rw [subscribe_validate_cons] at hval
      show ((match parse_subscription (x :: xs) with
        | .ok (.done o item) =>
          item :: sub_items_go xs.length ((x :: xs).drop o)
        | _ => ([] : List (List Nat × QoS))).map
          (fun t : List Nat × QoS => 2 + t.1.length + 1)).sum = (x :: xs).length
      cases hp : parse_subscription (x :: xs) with
      | error e =>
        rw [hp] at hval
        exact absurd hval (by simp)
      | ok st =>
        cases st with
        | more m =>
          rw [hp] at hval
          exact absurd hval (by simp)
        | done o item =>
          rw [hp] at hval
          obtain ⟨ho, hole⟩ := parse_subscription_done_spec hp
          have hval' : subscribe_validate ((x :: xs).drop o) = none := hval
          have hxlen : (x :: xs).length = xs.length + 1 := rfl
          have hdl : ((x :: xs).drop o).length = (x :: xs).length - o := by
            rw [List.length_drop]
          simp only [List.map_cons, List.sum_cons]
          have hirrel : sub_items_go xs.length ((x :: xs).drop o)
              = sub_items_go ((x :: xs).drop o).length ((x :: xs).drop o) := by
            refine sub_items_go_irrel ((x :: xs).drop o).length _ le_rfl _ _ ?_ le_rfl
            omega
          rw [hirrel, IH ((x :: xs).drop o) (by omega) hval']
          omega

/-- A successful `encode_string` writes `2 + length` bytes. -/
theorem encode_string_len {s es : List Nat} (h : encode_string s = .ok es) :
    es.length = 2 + s.length := by
  unfold encode_string at h
  split at h
  · exact absurd h (by simp)
  · simp only [Except.ok.injEq] at h
    subst h
    simp [encode_u16]
    omega

/-- A successful `encode_bytes` writes `2 + length` bytes. -/
theorem encode_bytes_len {s es : List Nat} (h : encode_bytes s = .ok es) :
    es.length = 2 + s.length := by
  unfold encode_bytes at h
  split at h
  · exact absurd h (by simp)
  · simp only [Except.ok.injEq] at h
    subst h
    simp [encode_u16]
    omega

/-- The fold inside `Subscribe::encode` accumulates the concatenated entry
encodings. -/
theorem subscribe_encode_go (topics : List (List Nat × QoS)) :
    ∀ acc : List Nat, (∀ t ∈ topics, t.1.length ≤ 65535) →
    topics.foldl
      (fun (acc : Except EncodeError (List Nat)) (t : List Nat × QoS) =>
        match acc with
        | .error e => .error e
        | .ok bs =>
          match encode_string t.1 with
          | .error e => .error e
          | .ok ts => .ok (bs ++ ts ++ [qos_to_u8 t.2]))
      (.ok acc)
    = .ok (acc ++ subscriptions_bytes topics) := by
  induction topics with
  | nil => intro acc _; simp [subscriptions_bytes]
  | cons t ts IH =>
    intro acc h
    rw [List.foldl_cons]
    rw [show (match (.ok acc : Except EncodeError (List Nat)) with
      | .error e => .error e
      | .ok bs =>
        match encode_string t.1 with
        | .error e => .error e
        | .ok ts => .ok (bs ++ ts ++ [qos_to_u8 t.2])
      : Except EncodeError (List Nat)) =
      (match encode_string t.1 with
      | .error e => .error e
      | .ok ts => .ok (acc ++ ts ++ [qos_to_u8 t.2])
      : Except EncodeError (List Nat)) from rfl]
    rw [encode_string_spec t.1 (h t (by simp))]
    rw [IH (acc ++ (t.1.length / 256 :: t.1.length % 256 :: t.1) ++ [qos_to_u8 t.2])
      (fun x hx => h x (by simp [hx]))]
    rw [subscriptions_bytes_cons]
    simp

/-- `Subscribe::encode` on the `Encode` variant writes the concatenated
entries. -/
theorem subscribe_payload_encode_spec (topics : List (List Nat × QoS))
    (h : ∀ t ∈ topics, t.1.length ≤ 65535) :
    subscribe_payload_encode (.Encode topics) = .ok (subscriptions_bytes topics) := by
  rw [subscribe_payload_encode]
  rw [show subscribe_topics (.Encode topics) = topics from rfl]
  have := subscribe_encode_go topics [] h
  rw [this]
  simp

/-- The length of an encoded subscription list matches
`Subscribe::encoded_len` of the `Encode` variant. -/
theorem subscriptions_bytes_len (topics : List (List Nat × QoS)) :
    (subscriptions_bytes topics).length
      = subscribe_payload_encoded_len (.Encode topics) := by
  induction topics with
  | nil => rfl
  | cons t ts IH =>
    rw [subscriptions_bytes_cons]
    show (t.1 ++ (qos_to_u8 t.2 :: subscriptions_bytes ts)).length + 1 + 1
      = subscribe_payload_encoded_len (.Encode (t :: ts))
    rw [subscribe_payload_encoded_len]
    rw [show subscribe_topics (.Encode (t :: ts)) = t :: ts from rfl,
      List.map_cons, List.sum_cons]
    rw [show subscribe_payload_encoded_len (.Encode ts)
      = ((subscribe_topics (.Encode ts)).map (fun t => 2 + t.1.length + 1)).sum
      from rfl] at IH
    rw [show subscribe_topics (.Encode ts) = ts from rfl] at IH
    simp only [List.length_append, List.length_cons]
    omega

/-- `Packet::decode` composed from its three stages: once the fixed header and
variable header results are known and the buffer is exactly one whole packet,
the result is determined by `Payload::decode` on the payload slice. -/
theorem packet_decode_eq_of (bs : List Nat) (fho : Nat) (fh : FixedHeader)
    (vhc : Nat) (vh? : Option VariableHeader)
    (hfh : fixed_header_decode bs = .ok (.done fho fh))
    (hvh : variable_header_decode fh.ptype fh.flags (bs.drop fho) =
      vh?.map (fun vh => .ok (.done vhc vh)))
    (hvhc0 : vh? = none → vhc = 0)
    (hle : vhc ≤ fh.len)
    (hlen : bs.length = fho + fh.len) :
    packet_decode bs =
      (match payload_decode fh.ptype ((bs.drop (fho + vhc)).take (fh.len - vhc)) with
       | some (.error e) => some (.error e)
       | some (.ok (.more n)) => some (.ok (.more n))
       | some (.ok (.done _ p)) => some (.ok (.done (fho + fh.len) ⟨fh, vh?, p⟩))
       | none => some (.ok (.done (fho + fh.len)
           ⟨fh, vh?, .bytes ((bs.drop (fho + vhc)).take (fh.len - vhc))⟩))) := by
  rw [packet_decode.eq_def, hfh]
  show (match variable_header_decode fh.ptype fh.flags (bs.drop fho) with
    | some (.error e) => some (.error e)
    | some (.ok (.more n)) => some (.ok (.more n))
    | some (.ok (.done vhc vh)) => packet_decode_payload bs fho fh vhc (some vh)
    | none => packet_decode_payload bs fho fh 0 none
    : Option (Parsed Packet)) = _
  cases vh? with
  | none =>
    have h0 : vhc = 0 := hvhc0 rfl
    subst h0
    rw [show (Option.map (fun vh => (Except.ok (Status.done 0 vh) : Parsed VariableHeader)) none : Option (Parsed VariableHeader)) = none from rfl] at hvh
    rw [hvh]
    show packet_decode_payload bs fho fh 0 none = _
    rw [packet_decode_payload]
    rw [if_neg (by omega)]
    simp only []
    rw [show bs.length - (fho + 0) = fh.len - 0 from by omega]
    rw [Nat.min_self, Nat.sub_self]
    rw [if_neg (by omega)]
  | some vh =>
    rw [show (Option.map (fun vh => (Except.ok (Status.done vhc vh) : Parsed VariableHeader)) (some vh) : Option (Parsed VariableHeader)) = some (.ok (.done vhc vh)) from rfl] at hvh
    rw [hvh]
    show packet_decode_payload bs fho fh vhc (some vh) = _
    rw [packet_decode_payload]
    rw [if_neg (by omega)]
    simp only []
    rw [show bs.length - (fho + vhc) = fh.len - vhc from by omega]
    rw [Nat.min_self, Nat.sub_self]
    rw [if_neg (by omega)]

/-- `parse_packet_type` inverts `encode_packet_type` on 4-bit flag nibbles,
up to the flag-validation table. -/
theorem parse_packet_type_encode (t : PacketType) (flags : Nat) (h : flags < 16) :
    parse_packet_type (encode_packet_type t flags) = validate_flag t flags := by
  cases t <;> interval_cases flags <;> rfl

/-- `FixedHeader::decode` inverts `FixedHeader::encode` whenever the
remaining length fits in the 4-digit budget and the flag nibble passes
validation, with any trailing bytes. -/
theorem fixed_header_decode_encode (fh : FixedHeader) (tail : List Nat)
    (hf : fh.flags < 16)
    (hv : validate_flag fh.ptype fh.flags = .ok (fh.ptype, fh.flags))
    (hlen : fh.len ≤ 268435455) :
    ∃ fhb, fixed_header_encode fh = some fhb ∧
      fixed_header_encoded_len fh = some fhb.length ∧ 2 ≤ fhb.length ∧
      fixed_header_decode (fhb ++ tail) = .ok (.done fhb.length fh) := by
  obtain ⟨ds, hds, hdlen, hparse⟩ :=
    erl_go_spec fh.len 4 (by omega) (by omega) (by omega)
  have h14 : 1 ≤ ds.length ∧ ds.length ≤ 4 := by
    rw [hdlen]; split_ifs <;> omega
  refine ⟨encode_packet_type fh.ptype fh.flags :: ds, ?_, ?_, ?_, ?_⟩
  · rw [fixed_header_encode, encode_remaining_length, hds]; rfl
  · rw [fixed_header_encoded_len, encode_remaining_length, hds]
    simp [Nat.add_comm]
  · simp only [List.length_cons]; omega
  · cases ds with
    | nil => simp at h14
    | cons d ds' =>
      have hstep : fixed_header_decode
          ((encode_packet_type fh.ptype fh.flags :: (d :: ds')) ++ tail) =
          (match parse_packet_type (encode_packet_type fh.ptype fh.flags) with
           | .error e => .error e
           | .ok (t, flags) =>
             match parse_remaining_length ((d :: ds') ++ tail) with
             | .error e => .error e
             | .ok (.more n) => .ok (.more n)
             | .ok (.done c len) => .ok (.done (1 + c) ⟨t, flags, len⟩)
             : Parsed FixedHeader) := rfl
      rw [hstep, parse_packet_type_encode fh.ptype fh.flags hf, hv]
      show (match parse_remaining_length ((d :: ds') ++ tail) with
            | .error e => .error e
            | .ok (.more n) => .ok (.more n)
            | .ok (.done c len) => .ok (.done (1 + c) ⟨fh.ptype, fh.flags, len⟩)
            : Parsed FixedHeader) = _
      have hmul : 1 * 128 ^ ((d :: ds').length - 1) ≤ 2097152 := by
        have h3 : (d :: ds').length - 1 ≤ 3 := by omega
        calc 1 * 128 ^ ((d :: ds').length - 1)
            = 128 ^ ((d :: ds').length - 1) := by omega
          _ ≤ 128 ^ 3 := Nat.pow_le_pow_right (by norm_num) h3
          _ ≤ 2097152 := by norm_num
      rw [parse_remaining_length, hparse tail 1 0 0 (by omega) hmul]
      show (Except.ok (Status.done (1 + (0 + (d :: ds').length))
        (⟨fh.ptype, fh.flags, 0 + fh.len * 1⟩ : FixedHeader)) : Parsed FixedHeader) = _
      rw [show 0 + fh.len * 1 = fh.len from by omega]
      rw [show 1 + (0 + (d :: ds').length)
        = (encode_packet_type fh.ptype fh.flags :: d :: ds').length from by
          simp only [List.length_cons]; omega]

/-- `payload::connect::Connect::encode` succeeds on bounded fields and
writes `encoded_len` bytes. -/
theorem connect_payload_encode_spec (p : ConnectPayload)
    (hcid : p.client_id.length ≤ 65535)
    (hw : ∀ w ∈ p.will, w.topic.length ≤ 65535 ∧ w.message.length ≤ 65535)
    (hu : ∀ u ∈ p.username, u.length ≤ 65535)
    (hpw : ∀ pw ∈ p.password, pw.length ≤ 65535) :
    ∃ pb, connect_payload_encode p = .ok pb ∧
      pb.length = connect_payload_encoded_len p := by
  obtain ⟨cid, will, user, pass⟩ := p
  simp only at hcid hw hu hpw
  rw [connect_payload_encode]
  simp only
  rw [encode_string_spec cid hcid]
  have hwill : ∃ wb, (match will with
      | none => .ok []
      | some w => will_encode w : Except EncodeError (List Nat)) = .ok wb ∧
      wb.length = (will.map will_encoded_len).getD 0 := by
    cases will with
    | none => exact ⟨[], rfl, rfl⟩
    | some w =>
      obtain ⟨hwt, hwm⟩ := hw w (by simp)
      have henc : will_encode w =
          .ok ((w.topic.length / 256 :: w.topic.length % 256 :: w.topic) ++
            (w.message.length / 256 :: w.message.length % 256 :: w.message)) := by
        rw [will_encode, encode_string_spec w.topic hwt,
          encode_bytes_spec w.message hwm]
      refine ⟨_, henc, ?_⟩
      simp [will_encoded_len]
      omega
  have huser : ∃ ub, (match user with
      | none => .ok []
      | some u => encode_string u : Except EncodeError (List Nat)) = .ok ub ∧
      ub.length = (user.map (fun u => 2 + u.length)).getD 0 := by
    cases user with
    | none => exact ⟨[], rfl, rfl⟩
    | some u =>
      refine ⟨_, encode_string_spec u (hu u (by simp)), ?_⟩
      simp
      omega
  have hpass : ∃ pb, (match pass with
      | none => .ok []
      | some pw => encode_bytes pw : Except EncodeError (List Nat)) = .ok pb ∧
      pb.length = (pass.map (fun pw => 2 + pw.length)).getD 0 := by
    cases pass with
    | none => exact ⟨[], rfl, rfl⟩
    | some pw =>
      refine ⟨_, encode_bytes_spec pw (hpw pw (by simp)), ?_⟩
      simp
      omega
  obtain ⟨wb, hwb, hwbl⟩ := hwill
  obtain ⟨ub, hub, hubl⟩ := huser
  obtain ⟨pb, hpb, hpbl⟩ := hpass
  rw [hwb, hub, hpb]
  refine ⟨_, rfl, ?_⟩
  simp only [connect_payload_encoded_len, List.length_append, List.length_cons]
  omega

/-- `Packet::encode` concatenates the three successfully encoded sections. -/
theorem packet_encode_mk (fh : FixedHeader) (vh : VariableHeader) (pl : Payload)
    (fhb vhb pb : List Nat)
    (h1 : fixed_header_encode fh = some fhb)
    (h2 : variable_header_encode vh = .ok vhb)
    (h3 : payload_encode pl = .ok pb) :
    packet_encode ⟨fh, some vh, pl⟩ = some (.ok (fhb ++ vhb ++ pb)) := by
  show (match fixed_header_encode fh with
        | none => none
        | some fhb =>
          some (match (variable_header_encode vh : Except EncodeError (List Nat)) with
            | .error e => .error e
            | .ok vhb =>
              match payload_encode pl with
              | .error e => .error e
              | .ok pb => .ok (fhb ++ vhb ++ pb))
        : Option (Except EncodeError (List Nat))) = _
  rw [h1, h2, h3]

/-- Round trip of a `Packet::subscribe` packet: construction and encoding
succeed, and decoding the bytes restores the packet except that the payload
comes back as the `Decode` variant over the same subscription bytes. -/
theorem subscribe_roundtrip (pid : Nat) (topics : List (List Nat × QoS))
    (hgood : ∀ t ∈ topics, good_string t.1 = true)
    (hlen : ∀ t ∈ topics, t.1.length ≤ 65535)
    (hbound : subscribe_payload_encoded_len (.Encode topics) ≤ 268435453) :
    ∃ fhb,
      packet_subscribe pid topics = .ok
        ⟨⟨.subscribe, 2, 2 + subscribe_payload_encoded_len (.Encode topics)⟩,
          some (.subscribe pid), .subscribe (.Encode topics)⟩ ∧
      packet_encode
        ⟨⟨.subscribe, 2, 2 + subscribe_payload_encoded_len (.Encode topics)⟩,
          some (.subscribe pid), .subscribe (.Encode topics)⟩ =
        some (.ok (fhb ++ (pid / 256 :: pid % 256 :: subscriptions_bytes topics))) ∧
      packet_encoded_len
        ⟨⟨.subscribe, 2, 2 + subscribe_payload_encoded_len (.Encode topics)⟩,
          some (.subscribe pid), .subscribe (.Encode topics)⟩ =
        some (fhb ++ (pid / 256 :: pid % 256 :: subscriptions_bytes topics)).length ∧
      packet_decode (fhb ++ (pid / 256 :: pid % 256 :: subscriptions_bytes topics)) =
        some (.ok (.done
          (fhb ++ (pid / 256 :: pid % 256 :: subscriptions_bytes topics)).length
          ⟨⟨.subscribe, 2, 2 + subscribe_payload_encoded_len (.Encode topics)⟩,
            some (.subscribe pid),
            .subscribe (.Decode (subscriptions_bytes topics))⟩)) := by
  obtain ⟨fhb, henc, helen, hfhb2, hdec⟩ :=
    fixed_header_decode_encode
      ⟨.subscribe, 2, 2 + subscribe_payload_encoded_len (.Encode topics)⟩
      (pid / 256 :: pid % 256 :: subscriptions_bytes topics)
      (by norm_num) (by rfl)
      (by show 2 + subscribe_payload_encoded_len (.Encode topics) ≤ 268435455
          omega)
  have hsb : (subscriptions_bytes topics).length
      = subscribe_payload_encoded_len (.Encode topics) := subscriptions_bytes_len topics
  have htot : (fhb ++ (pid / 256 :: pid % 256 :: subscriptions_bytes topics)).length
      = fhb.length + (2 + subscribe_payload_encoded_len (.Encode topics)) := by
    simp only [List.length_append, List.length_cons, hsb]
    omega
  refine ⟨fhb, ?_, ?_, ?_, ?_⟩
  · show (if 4294967295 < 2 + subscribe_payload_encoded_len (.Encode topics)
        then (Except.error .valueTooBig : Except EncodeError Packet)
        else .ok ⟨⟨.subscribe, 2, 2 + subscribe_payload_encoded_len (.Encode topics)⟩,
          some (.subscribe pid), .subscribe (.Encode topics)⟩) = _
    rw [if_neg (by omega)]
  · have hpe : payload_encode (.subscribe (.Encode topics))
        = .ok (subscriptions_bytes topics) := by
      show subscribe_payload_encode (.Encode topics) = _
      exact subscribe_payload_encode_spec topics hlen
    rw [packet_encode_mk
      ⟨.subscribe, 2, 2 + subscribe_payload_encoded_len (.Encode topics)⟩
      (.subscribe pid) (.subscribe (.Encode topics))
      fhb (encode_u16 pid) (subscriptions_bytes topics) henc rfl hpe]
    simp [List.append_assoc, encode_u16]
  · show (fixed_header_encoded_len
        ⟨.subscribe, 2, 2 + subscribe_payload_encoded_len (.Encode topics)⟩).map
        (fun x => x + (2 + subscribe_payload_encoded_len (.Encode topics))) = _
    rw [helen, htot]
    rfl
  · have hvh : variable_header_decode PacketType.subscribe 2
        (pid / 256 :: pid % 256 :: subscriptions_bytes topics) =
        some (.ok (.done 2 (.subscribe pid))) := by
      show some (match packet_identifier_decode
          (pid / 256 :: pid % 256 :: subscriptions_bytes topics) with
        | .error e => .error e
        | .ok (.more n) => .ok (.more n)
        | .ok (.done c v) => .ok (.done c (.subscribe v))
        : Parsed VariableHeader) = _
      rw [packet_identifier_decode_encode]
    have heq := packet_decode_eq_of
      (fhb ++ (pid / 256 :: pid % 256 :: subscriptions_bytes topics))
      fhb.length
      ⟨.subscribe, 2, 2 + subscribe_payload_encoded_len (.Encode topics)⟩
      2 (some (.subscribe pid))
      hdec
      (by rw [List.drop_left]; exact hvh)
      (fun h => Option.noConfusion h)
      (by show (2:Nat) ≤ 2 + subscribe_payload_encoded_len (.Encode topics); omega)
      (by rw [htot])
    rw [heq]
    have hslice : ((fhb ++ (pid / 256 :: pid % 256 :: subscriptions_bytes topics)).drop
        (fhb.length + 2)).take
          ((⟨.subscribe, 2, 2 + subscribe_payload_encoded_len (.Encode topics)⟩
            : FixedHeader).len - 2)
        = subscriptions_bytes topics := by
      rw [show fhb ++ (pid / 256 :: pid % 256 :: subscriptions_bytes topics)
        = (fhb ++ [pid / 256, pid % 256]) ++ subscriptions_bytes topics from by simp]
      rw [show fhb.length + 2 = (fhb ++ [pid / 256, pid % 256]).length from by simp]
      rw [List.drop_left]
      show (subscriptions_bytes topics).take
        (2 + subscribe_payload_encoded_len (.Encode topics) - 2) = _
      rw [show 2 + subscribe_payload_encoded_len (.Encode topics) - 2
        = subscribe_payload_encoded_len (.Encode topics) from by omega]
      rw [← hsb, List.take_length]
    rw [hslice]
    have hval : subscribe_payload_decode (subscriptions_bytes topics)
        = .ok (.done (subscriptions_bytes topics).length
            (.Decode (subscriptions_bytes topics))) := by
      rw [subscribe_payload_decode, subscribe_validate_encode topics hgood]
    show (match payload_decode PacketType.subscribe (subscriptions_bytes topics) with
      | some (.error e) => some (.error e)
      | some (.ok (.more n)) => some (.ok (.more n))
      | some (.ok (.done _ p)) => some (.ok (.done
          (fhb.length + (2 + subscribe_payload_encoded_len (.Encode topics)))
          ⟨⟨.subscribe, 2, 2 + subscribe_payload_encoded_len (.Encode topics)⟩,
            some (.subscribe pid), p⟩))
      | none => some (.ok (.done
          (fhb.length + (2 + subscribe_payload_encoded_len (.Encode topics)))
          ⟨⟨.subscribe, 2, 2 + subscribe_payload_encoded_len (.Encode topics)⟩,
            some (.subscribe pid), .bytes (subscriptions_bytes topics)⟩))
      : Option (Parsed Packet)) = _
    rw [show payload_decode PacketType.subscribe (subscriptions_bytes topics)
      = (some (match subscribe_payload_decode (subscriptions_bytes topics) with
        | .error e => .error e
        | .ok (.more n) => .ok (.more n)
        | .ok (.done c v) => .ok (.done c (.subscribe v))
        : Parsed Payload) : Option (Parsed Payload)) from rfl]
    rw [hval, htot]

/-- Round trip of a `Packet::connect` packet (with the standard `MQTT`
protocol name): construction and encoding succeed, the fixed and variable
headers decode back exactly, but the payload comes back as raw bytes
(`Payload::Bytes`), not as the structured Connect payload. -/
theorem connect_roundtrip (flags ka : Nat) (pl : ConnectPayload)
    (hwq : flags / 8 % 4 ≠ 3)
    (hcid : pl.client_id.length ≤ 65535)
    (hw : ∀ w ∈ pl.will, w.topic.length ≤ 65535 ∧ w.message.length ≤ 65535)
    (hu : ∀ u ∈ pl.username, u.length ≤ 65535)
    (hpw : ∀ pw ∈ pl.password, pw.length ≤ 65535)
    (hbound : connect_payload_encoded_len pl ≤ 268435445) :
    ∃ fhb pb,
      connect_payload_encode pl = .ok pb ∧
      pb.length = connect_payload_encoded_len pl ∧
      packet_connect ⟨[77, 81, 84, 84], flags, ka⟩ pl = .ok
        ⟨⟨.connect, 0, 10 + connect_payload_encoded_len pl⟩,
          some (.connect ⟨[77, 81, 84, 84], flags, ka⟩), .connect pl⟩ ∧
      packet_encode
        ⟨⟨.connect, 0, 10 + connect_payload_encoded_len pl⟩,
          some (.connect ⟨[77, 81, 84, 84], flags, ka⟩), .connect pl⟩ =
        some (.ok (fhb ++
          (0 :: 4 :: 77 :: 81 :: 84 :: 84 :: 4 :: flags :: ka / 256 :: ka % 256 :: pb))) ∧
      packet_encoded_len
        ⟨⟨.connect, 0, 10 + connect_payload_encoded_len pl⟩,
          some (.connect ⟨[77, 81, 84, 84], flags, ka⟩), .connect pl⟩ =
        some (fhb ++
          (0 :: 4 :: 77 :: 81 :: 84 :: 84 :: 4 :: flags :: ka / 256 :: ka % 256 :: pb)).length ∧
      packet_decode (fhb ++
          (0 :: 4 :: 77 :: 81 :: 84 :: 84 :: 4 :: flags :: ka / 256 :: ka % 256 :: pb)) =
        some (.ok (.done
          (fhb ++
            (0 :: 4 :: 77 :: 81 :: 84 :: 84 :: 4 :: flags :: ka / 256 :: ka % 256 :: pb)).length
          ⟨⟨.connect, 0, 10 + connect_payload_encoded_len pl⟩,
            some (.connect ⟨[77, 81, 84, 84], flags, ka⟩), .bytes pb⟩)) := by
  obtain ⟨pb, hpb, hpbl⟩ := connect_payload_encode_spec pl hcid hw hu hpw
  obtain ⟨fhb, henc, helen, hfhb2, hdec⟩ :=
    fixed_header_decode_encode
      ⟨.connect, 0, 10 + connect_payload_encoded_len pl⟩
      (0 :: 4 :: 77 :: 81 :: 84 :: 84 :: 4 :: flags :: ka / 256 :: ka % 256 :: pb)
      (by norm_num) (by rfl)
      (by show 10 + connect_payload_encoded_len pl ≤ 268435455
          omega)
  have htot : (fhb ++
      (0 :: 4 :: 77 :: 81 :: 84 :: 84 :: 4 :: flags :: ka / 256 :: ka % 256 :: pb)).length
      = fhb.length + (10 + connect_payload_encoded_len pl) := by
    simp only [List.length_append, List.length_cons, hpbl]
    omega
  refine ⟨fhb, pb, hpb, hpbl, ?_, ?_, ?_, ?_⟩
  · show (if 4294967295 < 10 + connect_payload_encoded_len pl
        then (Except.error .valueTooBig : Except EncodeError Packet)
        else .ok ⟨⟨.connect, 0, 10 + connect_payload_encoded_len pl⟩,
          some (.connect ⟨[77, 81, 84, 84], flags, ka⟩), .connect pl⟩) = _
    rw [if_neg (by omega)]
  · have hvhe : variable_header_encode (.connect ⟨[77, 81, 84, 84], flags, ka⟩)
        = .ok [0, 4, 77, 81, 84, 84, 4, flags, ka / 256, ka % 256] := by
      show connect_vh_encode ⟨[77, 81, 84, 84], flags, ka⟩ = _
      rw [connect_vh_encode, encode_string_spec [77, 81, 84, 84] (by norm_num)]
      simp [encode_u16]
    rw [packet_encode_mk
      ⟨.connect, 0, 10 + connect_payload_encoded_len pl⟩
      (.connect ⟨[77, 81, 84, 84], flags, ka⟩) (.connect pl)
      fhb [0, 4, 77, 81, 84, 84, 4, flags, ka / 256, ka % 256] pb
      henc hvhe hpb]
    simp [List.append_assoc]
  · show (fixed_header_encoded_len
        ⟨.connect, 0, 10 + connect_payload_encoded_len pl⟩).map
        (fun x => x + (10 + connect_payload_encoded_len pl)) = _
    rw [helen, htot]
    rfl
  · have hvh : variable_header_decode PacketType.connect 0
        (0 :: 4 :: 77 :: 81 :: 84 :: 84 :: 4 :: flags :: ka / 256 :: ka % 256 :: pb) =
        some (.ok (.done 10 (.connect ⟨[77, 81, 84, 84], flags, ka⟩))) := by
      show some (match connect_vh_decode
          (0 :: 4 :: 77 :: 81 :: 84 :: 84 :: 4 :: flags :: ka / 256 :: ka % 256 :: pb) with
        | .error e => .error e
        | .ok (.more n) => .ok (.more n)
        | .ok (.done c v) => .ok (.done c (.connect v))
        : Parsed VariableHeader) = _
      rw [connect_vh_decode_encode flags ka pb hwq]
    have heq := packet_decode_eq_of
      (fhb ++ (0 :: 4 :: 77 :: 81 :: 84 :: 84 :: 4 :: flags :: ka / 256 :: ka % 256 :: pb))
      fhb.length
      ⟨.connect, 0, 10 + connect_payload_encoded_len pl⟩
      10 (some (.connect ⟨[77, 81, 84, 84], flags, ka⟩))
      hdec
      (by rw [List.drop_left]; exact hvh)
      (fun h => Option.noConfusion h)
      (by show (10:Nat) ≤ 10 + connect_payload_encoded_len pl; omega)
      (by rw [htot])
    rw [heq]
    have hslice : ((fhb ++
        (0 :: 4 :: 77 :: 81 :: 84 :: 84 :: 4 :: flags :: ka / 256 :: ka % 256 :: pb)).drop
        (fhb.length + 10)).take
          ((⟨.connect, 0, 10 + connect_payload_encoded_len pl⟩ : FixedHeader).len - 10)
        = pb := by
      rw [show fhb ++
          (0 :: 4 :: 77 :: 81 :: 84 :: 84 :: 4 :: flags :: ka / 256 :: ka % 256 :: pb)
        = (fhb ++ [0, 4, 77, 81, 84, 84, 4, flags, ka / 256, ka % 256]) ++ pb from by simp]
      rw [show fhb.length + 10
        = (fhb ++ [0, 4, 77, 81, 84, 84, 4, flags, ka / 256, ka % 256]).length from by simp]
      rw [List.drop_left]
      show pb.take (10 + connect_payload_encoded_len pl - 10) = _
      rw [show 10 + connect_payload_encoded_len pl - 10
        = connect_payload_encoded_len pl from by omega]
      rw [← hpbl, List.take_length]
    rw [hslice]
    rw [show payload_decode
        (⟨PacketType.connect, 0, 10 + connect_payload_encoded_len pl⟩
          : FixedHeader).ptype pb
      = (none : Option (Parsed Payload)) from rfl]
    rw [htot]

/-- Round trip of a `Packet::publish` packet with QoS 1 or 2 and a packet
identifier: decoding the encoded bytes restores the packet exactly. -/
theorem publish_roundtrip_pid (flags : Nat) (topic : List Nat) (i : Nat)
    (payload : List Nat)
    (hf : flags < 16)
    (hq : flags / 2 % 4 = 1 ∨ flags / 2 % 4 = 2)
    (hgood : good_string topic = true)
    (htl : topic.length ≤ 65535)
    (hbound : 2 + topic.length + 2 + payload.length ≤ 268435455) :
    ∃ fhb,
      packet_publish flags ⟨topic, some i⟩ payload = some (.ok
        ⟨⟨.publish, flags, 2 + topic.length + 2 + payload.length⟩,
          some (.publish ⟨topic, some i⟩), .bytes payload⟩) ∧
      packet_encode ⟨⟨.publish, flags, 2 + topic.length + 2 + payload.length⟩,
          some (.publish ⟨topic, some i⟩), .bytes payload⟩ =
        some (.ok (fhb ++ (topic.length / 256 :: topic.length % 256 ::
          (topic ++ (i / 256 :: i % 256 :: payload))))) ∧
      packet_encoded_len ⟨⟨.publish, flags, 2 + topic.length + 2 + payload.length⟩,
          some (.publish ⟨topic, some i⟩), .bytes payload⟩ =
        some (fhb ++ (topic.length / 256 :: topic.length % 256 ::
          (topic ++ (i / 256 :: i % 256 :: payload)))).length ∧
      packet_decode (fhb ++ (topic.length / 256 :: topic.length % 256 ::
          (topic ++ (i / 256 :: i % 256 :: payload)))) =
        some (.ok (.done (fhb ++ (topic.length / 256 :: topic.length % 256 ::
            (topic ++ (i / 256 :: i % 256 :: payload)))).length
          ⟨⟨.publish, flags, 2 + topic.length + 2 + payload.length⟩,
            some (.publish ⟨topic, some i⟩), .bytes payload⟩)) := by
  obtain ⟨qv, hqv, hne⟩ : ∃ qv, publish_flags_qos flags = .ok qv ∧
      qv ≠ QoS.atMostOnce := by
    rcases hq with h | h
    · exact ⟨.atLeastOnce, by rw [publish_flags_qos, h]; rfl, by simp⟩
    · exact ⟨.exactlyOnce, by rw [publish_flags_qos, h]; rfl, by simp⟩
  obtain ⟨fhb, henc, helen, hfhb2, hdec⟩ :=
    fixed_header_decode_encode
      ⟨.publish, flags, 2 + topic.length + 2 + payload.length⟩
      (topic.length / 256 :: topic.length % 256 ::
        (topic ++ (i / 256 :: i % 256 :: payload)))
      hf (by rfl)
      (by show 2 + topic.length + 2 + payload.length ≤ 268435455
          omega)
  have htot : (fhb ++ (topic.length / 256 :: topic.length % 256 ::
      (topic ++ (i / 256 :: i % 256 :: payload)))).length
      = fhb.length + (2 + topic.length + 2 + payload.length) := by
    simp only [List.length_append, List.length_cons]
    omega
  refine ⟨fhb, ?_, ?_, ?_, ?_⟩
  · rw [packet_publish, hqv]
    show (if qv = QoS.atMostOnce ∨ (some i : Option Nat).isSome = true
        then some (packet_mk .publish flags
          (some (.publish ⟨topic, some i⟩)) (.bytes payload))
        else none) = _
    rw [if_pos (Or.inr (by simp))]
    show some (if 4294967295 < 2 + topic.length + 2 + payload.length
        then (Except.error .valueTooBig : Except EncodeError Packet)
        else .ok ⟨⟨.publish, flags, 2 + topic.length + 2 + payload.length⟩,
          some (.publish ⟨topic, some i⟩), .bytes payload⟩) = _
    rw [if_neg (by omega)]
  · have hvhe : variable_header_encode (.publish ⟨topic, some i⟩)
        = .ok ((topic.length / 256 :: topic.length % 256 :: topic) ++
            [i / 256, i % 256]) := by
      show publish_vh_encode ⟨topic, some i⟩ = _
      rw [publish_vh_encode, encode_string_spec topic htl]
      rfl
    rw [packet_encode_mk
      ⟨.publish, flags, 2 + topic.length + 2 + payload.length⟩
      (.publish ⟨topic, some i⟩) (.bytes payload)
      fhb ((topic.length / 256 :: topic.length % 256 :: topic) ++ [i / 256, i % 256])
      payload henc hvhe rfl]
    simp [List.append_assoc]
  · show (fixed_header_encoded_len
        ⟨.publish, flags, 2 + topic.length + 2 + payload.length⟩).map
        (fun x => x + (2 + topic.length + 2 + payload.length)) = _
    rw [helen, htot]
    rfl
  · have hvh : variable_header_decode PacketType.publish flags
        (topic.length / 256 :: topic.length % 256 ::
          (topic ++ (i / 256 :: i % 256 :: payload))) =
        some (.ok (.done (2 + topic.length + 2) (.publish ⟨topic, some i⟩))) := by
      show some (match publish_vh_decode flags
          (topic.length / 256 :: topic.length % 256 ::
            (topic ++ (i / 256 :: i % 256 :: payload))) with
        | .error e => .error e
        | .ok (.more n) => .ok (.more n)
        | .ok (.done c v) => .ok (.done c (.publish v))
        : Parsed VariableHeader) = _
      rw [publish_vh_decode_encode_pid flags topic i payload hq hgood]
    have heq := packet_decode_eq_of
      (fhb ++ (topic.length / 256 :: topic.length % 256 ::
        (topic ++ (i / 256 :: i % 256 :: payload))))
      fhb.length
      ⟨.publish, flags, 2 + topic.length + 2 + payload.length⟩
      (2 + topic.length + 2) (some (.publish ⟨topic, some i⟩))
      hdec
      (by rw [List.drop_left]; exact hvh)
      (fun h => Option.noConfusion h)
      (by show 2 + topic.length + 2
            ≤ 2 + topic.length + 2 + payload.length
          omega)
      (by rw [htot])
    rw [heq]
    have hslice : ((fhb ++ (topic.length / 256 :: topic.length % 256 ::
        (topic ++ (i / 256 :: i % 256 :: payload)))).drop
        (fhb.length + (2 + topic.length + 2))).take
          ((⟨.publish, flags, 2 + topic.length + 2 + payload.length⟩
            : FixedHeader).len - (2 + topic.length + 2))
        = payload := by
      rw [show fhb ++ (topic.length / 256 :: topic.length % 256 ::
          (topic ++ (i / 256 :: i % 256 :: payload)))
        = (fhb ++ ((topic.length / 256 :: topic.length % 256 :: topic) ++
            [i / 256, i % 256])) ++ payload from by simp]
      rw [show fhb.length + (2 + topic.length + 2)
        = (fhb ++ ((topic.length / 256 :: topic.length % 256 :: topic) ++
            [i / 256, i % 256])).length from by
          simp only [List.length_append, List.length_cons, List.length_nil]
          omega]
      rw [List.drop_left]
      show payload.take
        (2 + topic.length + 2 + payload.length - (2 + topic.length + 2)) = _
      rw [show 2 + topic.length + 2 + payload.length - (2 + topic.length + 2)
        = payload.length from by omega, List.take_length]
    rw [hslice]
    rw [show payload_decode
        (⟨PacketType.publish, flags, 2 + topic.length + 2 + payload.length⟩
          : FixedHeader).ptype payload
      = (none : Option (Parsed Payload)) from rfl]
    rw [htot]

/-- Round trip of a `Packet::publish` packet with QoS 0 and no packet
identifier: decoding the encoded bytes restores the packet exactly. -/
theorem publish_roundtrip_nopid (flags : Nat) (topic : List Nat)
    (payload : List Nat)
    (hf : flags < 16)
    (hq : flags / 2 % 4 = 0)
    (hgood : good_string topic = true)
    (htl : topic.length ≤ 65535)
    (hbound : 2 + topic.length + payload.length ≤ 268435455) :
    ∃ fhb,
      packet_publish flags ⟨topic, none⟩ payload = some (.ok
        ⟨⟨.publish, flags, 2 + topic.length + payload.length⟩,
          some (.publish ⟨topic, none⟩), .bytes payload⟩) ∧
      packet_encode ⟨⟨.publish, flags, 2 + topic.length + payload.length⟩,
          some (.publish ⟨topic, none⟩), .bytes payload⟩ =
        some (.ok (fhb ++ (topic.length / 256 :: topic.length % 256 ::
          (topic ++ payload)))) ∧
      packet_encoded_len ⟨⟨.publish, flags, 2 + topic.length + payload.length⟩,
          some (.publish ⟨topic, none⟩), .bytes payload⟩ =
        some (fhb ++ (topic.length / 256 :: topic.length % 256 ::
          (topic ++ payload))).length ∧
      packet_decode (fhb ++ (topic.length / 256 :: topic.length % 256 ::
          (topic ++ payload))) =
        some (.ok (.done (fhb ++ (topic.length / 256 :: topic.length % 256 ::
            (topic ++ payload))).length
          ⟨⟨.publish, flags, 2 + topic.length + payload.length⟩,
            some (.publish ⟨topic, none⟩), .bytes payload⟩)) := by
  have hqv : publish_flags_qos flags = .ok .atMostOnce := by
    rw [publish_flags_qos, hq]
    rfl
  obtain ⟨fhb, henc, helen, hfhb2, hdec⟩ :=
    fixed_header_decode_encode
      ⟨.publish, flags, 2 + topic.length + payload.length⟩
      (topic.length / 256 :: topic.length % 256 :: (topic ++ payload))
      hf (by rfl)
      (by show 2 + topic.length + payload.length ≤ 268435455
          omega)
  have htot : (fhb ++ (topic.length / 256 :: topic.length % 256 ::
      (topic ++ payload))).length
      = fhb.length + (2 + topic.length + payload.length) := by
    simp only [List.length_append, List.length_cons]
    omega
  refine ⟨fhb, ?_, ?_, ?_, ?_⟩
  · rw [packet_publish, hqv]
    show (if QoS.atMostOnce = QoS.atMostOnce ∨ (none : Option Nat).isSome = true
        then some (packet_mk .publish flags
          (some (.publish ⟨topic, none⟩)) (.bytes payload))
        else none) = _
    rw [if_pos (Or.inl rfl)]
    show some (if 4294967295 < 2 + topic.length + payload.length
        then (Except.error .valueTooBig : Except EncodeError Packet)
        else .ok ⟨⟨.publish, flags, 2 + topic.length + payload.length⟩,
          some (.publish ⟨topic, none⟩), .bytes payload⟩) = _
    rw [if_neg (by omega)]
  · have hvhe : variable_header_encode (.publish ⟨topic, none⟩)
        = .ok ((topic.length / 256 :: topic.length % 256 :: topic) ++ []) := by
      show publish_vh_encode ⟨topic, none⟩ = _
      rw [publish_vh_encode, encode_string_spec topic htl]
      rfl
    rw [packet_encode_mk
      ⟨.publish, flags, 2 + topic.length + payload.length⟩
      (.publish ⟨topic, none⟩) (.bytes payload)
      fhb ((topic.length / 256 :: topic.length % 256 :: topic) ++ [])
      payload henc hvhe rfl]
    simp [List.append_assoc]
  · show (fixed_header_encoded_len
        ⟨.publish, flags, 2 + topic.length + payload.length⟩).map
        (fun x => x + (2 + topic.length + payload.length)) = _
    rw [helen, htot]
    rfl
  · have hvh : variable_header_decode PacketType.publish flags
        (topic.length / 256 :: topic.length % 256 :: (topic ++ payload)) =
        some (.ok (.done (2 + topic.length) (.publish ⟨topic, none⟩))) := by
      show some (match publish_vh_decode flags
          (topic.length / 256 :: topic.length % 256 :: (topic ++ payload)) with
        | .error e => .error e
        | .ok (.more n) => .ok (.more n)
        | .ok (.done c v) => .ok (.done c (.publish v))
        : Parsed VariableHeader) = _
      rw [publish_vh_decode_encode_nopid flags topic payload hq hgood]
    have heq := packet_decode_eq_of
      (fhb ++ (topic.length / 256 :: topic.length % 256 :: (topic ++ payload)))
      fhb.length
      ⟨.publish, flags, 2 + topic.length + payload.length⟩
      (2 + topic.length) (some (.publish ⟨topic, none⟩))
      hdec
      (by rw [List.drop_left]; exact hvh)
      (fun h => Option.noConfusion h)
      (by show 2 + topic.length ≤ 2 + topic.length + payload.length
          omega)
      (by rw [htot])
    rw [heq]
    have hslice : ((fhb ++ (topic.length / 256 :: topic.length % 256 ::
        (topic ++ payload))).drop (fhb.length + (2 + topic.length))).take
          ((⟨.publish, flags, 2 + topic.length + payload.length⟩
            : FixedHeader).len - (2 + topic.length))
        = payload := by
      rw [show fhb ++ (topic.length / 256 :: topic.length % 256 :: (topic ++ payload))
        = (fhb ++ (topic.length / 256 :: topic.length % 256 :: topic)) ++ payload
        from by simp]
      rw [show fhb.length + (2 + topic.length)
        = (fhb ++ (topic.length / 256 :: topic.length % 256 :: topic)).length from by
          simp only [List.length_append, List.length_cons]; omega]
      rw [List.drop_left]
      show payload.take (2 + topic.length + payload.length - (2 + topic.length)) = _
      rw [show 2 + topic.length + payload.length - (2 + topic.length)
        = payload.length from by omega, List.take_length]
    rw [hslice]
    rw [show payload_decode
        (⟨PacketType.publish, flags, 2 + topic.length + payload.length⟩
          : FixedHeader).ptype payload
      = (none : Option (Parsed Payload)) from rfl]
    rw [htot]

/-- C1 (counterexample): for the constructible Connect packet with
client-id `"abc"`, `decode(encode(p))` is `Complete` with the right consumed
count and fixed/variable headers, but the payload comes back as
`Payload::Bytes` of the raw payload slice, not the structured Connect
payload, so the decoded packet is not structurally equal to `p`. -/
theorem C1_counterexample :
    packet_connect ⟨[77, 81, 84, 84], 0, 60⟩ ⟨[97, 98, 99], none, none, none⟩ =
      .ok ⟨⟨.connect, 0, 15⟩,
        some (.connect ⟨[77, 81, 84, 84], 0, 60⟩),
        .connect ⟨[97, 98, 99], none, none, none⟩⟩ ∧
    packet_encode ⟨⟨.connect, 0, 15⟩,
        some (.connect ⟨[77, 81, 84, 84], 0, 60⟩),
        .connect ⟨[97, 98, 99], none, none, none⟩⟩ =
      some (.ok [16, 15, 0, 4, 77, 81, 84, 84, 4, 0, 0, 60, 0, 3, 97, 98, 99]) ∧
    packet_decode [16, 15, 0, 4, 77, 81, 84, 84, 4, 0, 0, 60, 0, 3, 97, 98, 99] =
      some (.ok (.done 17 ⟨⟨.connect, 0, 15⟩,
        some (.connect ⟨[77, 81, 84, 84], 0, 60⟩),
        .bytes [0, 3, 97, 98, 99]⟩)) ∧
    (⟨⟨.connect, 0, 15⟩, some (.connect ⟨[77, 81, 84, 84], 0, 60⟩),
        .bytes [0, 3, 97, 98, 99]⟩ : Packet) ≠
      ⟨⟨.connect, 0, 15⟩, some (.connect ⟨[77, 81, 84, 84], 0, 60⟩),
        .connect ⟨[97, 98, 99], none, none, none⟩⟩ :=
  ⟨rfl, rfl, rfl, by decide⟩

/-- C1 (amended): encode-then-decode behaviour of the six typed
constructors.  Pingreq, Pingresp and (for any flags/topic/payload/packet
identifier combination consistent with the QoS bits) Publish round-trip
exactly, with the consumed count equal to `encoded_len`.  Puback decodes
with its variable header dropped (`VariableHeader::decode` has no Puback
arm) and the packet-identifier bytes returned as the raw payload.  Connect
decodes with the correct fixed and variable headers but the payload
returned as `Payload::Bytes` (the Connect arm of `Payload::decode` is
commented out).  Subscribe decodes with the payload returned as the
`Decode` variant over the same subscription bytes instead of the original
`Encode` variant. -/
theorem C1_roundtrip_amended :
    (packet_encode packet_pingreq = some (.ok [192, 0]) ∧
     packet_encoded_len packet_pingreq = some 2 ∧
     packet_decode [192, 0] = some (.ok (.done 2 packet_pingreq))) ∧
    (packet_encode packet_pingresp = some (.ok [208, 0]) ∧
     packet_encoded_len packet_pingresp = some 2 ∧
     packet_decode [208, 0] = some (.ok (.done 2 packet_pingresp))) ∧
    (∀ pid : Nat, ∃ p bs,
      packet_puback pid = .ok p ∧
      packet_encode p = some (.ok bs) ∧
      packet_encoded_len p = some bs.length ∧
      packet_decode bs = some (.ok (.done bs.length
        ⟨p.fixed_header, none, .bytes [pid / 256, pid % 256]⟩))) ∧
    (∀ flags topic i payload, flags < 16 →
      (flags / 2 % 4 = 1 ∨ flags / 2 % 4 = 2) →
      good_string topic = true → topic.length ≤ 65535 →
      2 + topic.length + 2 + payload.length ≤ 268435455 →
      ∃ p bs,
        packet_publish flags ⟨topic, some i⟩ payload = some (.ok p) ∧
        packet_encode p = some (.ok bs) ∧
        packet_encoded_len p = some bs.length ∧
        packet_decode bs = some (.ok (.done bs.length p))) ∧
    (∀ flags topic payload, flags < 16 → flags / 2 % 4 = 0 →
      good_string topic = true → topic.length ≤ 65535 →
      2 + topic.length + payload.length ≤ 268435455 →
      ∃ p bs,
        packet_publish flags ⟨topic, none⟩ payload = some (.ok p) ∧
        packet_encode p = some (.ok bs) ∧
        packet_encoded_len p = some bs.length ∧
        packet_decode bs = some (.ok (.done bs.length p))) ∧
    (∀ flags ka pl, flags / 8 % 4 ≠ 3 →
      pl.client_id.length ≤ 65535 →
      (∀ w ∈ pl.will, w.topic.length ≤ 65535 ∧ w.message.length ≤ 65535) →
      (∀ u ∈ pl.username, u.length ≤ 65535) →
      (∀ pw ∈ pl.password, pw.length ≤ 65535) →
      connect_payload_encoded_len pl ≤ 268435445 →
      ∃ p bs pb,
        packet_connect ⟨[77, 81, 84, 84], flags, ka⟩ pl = .ok p ∧
        connect_payload_encode pl = .ok pb ∧
        packet_encode p = some (.ok bs) ∧
        packet_encoded_len p = some bs.length ∧
        p.payload = .connect pl ∧
        packet_decode bs = some (.ok (.done bs.length
          ⟨p.fixed_header, p.variable_header, .bytes pb⟩))) ∧
    (∀ pid topics, (∀ t ∈ topics, good_string t.1 = true) →
      (∀ t ∈ topics, t.1.length ≤ 65535) →
      subscribe_payload_encoded_len (.Encode topics) ≤ 268435453 →
      ∃ p bs,
        packet_subscribe pid topics = .ok p ∧
        packet_encode p = some (.ok bs) ∧
        packet_encoded_len p = some bs.length ∧
        p.payload = .subscribe (.Encode topics) ∧
        packet_decode bs = some (.ok (.done bs.length
          ⟨p.fixed_header, p.variable_header,
            .subscribe (.Decode (subscriptions_bytes topics))⟩))) := by
  refine ⟨⟨rfl, rfl, rfl⟩, ⟨rfl, rfl, rfl⟩, ?_, ?_, ?_, ?_, ?_⟩
  · intro pid
    refine ⟨⟨⟨.puback, 0, 2⟩, some (.puback pid), .bytes []⟩,
      [64, 2, pid / 256, pid % 256], rfl, ?_, ?_, ?_⟩
    · rw [packet_encode_mk ⟨.puback, 0, 2⟩ (.puback pid) (.bytes [])
        [64, 2] (encode_u16 pid) [] rfl rfl rfl]
      simp [encode_u16]
    · rw [packet_encoded_len]
      rw [show Packet.fixed_header
          ⟨⟨.puback, 0, 2⟩, some (.puback pid), .bytes []⟩
        = ⟨.puback, 0, 2⟩ from rfl]
      rw [show fixed_header_encoded_len (⟨.puback, 0, 2⟩ : FixedHeader)
        = some 2 from rfl]
      rfl
    · rfl
  · intro flags topic i payload hf hq hgood htl hbound
    obtain ⟨fhb, h1, h2, h3, h4⟩ :=
      publish_roundtrip_pid flags topic i payload hf hq hgood htl hbound
    exact ⟨_, _, h1, h2, h3, h4⟩
  · intro flags topic payload hf hq hgood htl hbound
    obtain ⟨fhb, h1, h2, h3, h4⟩ :=
      publish_roundtrip_nopid flags topic payload hf hq hgood htl hbound
    exact ⟨_, _, h1, h2, h3, h4⟩
  · intro flags ka pl hwq hcid hw hu hpw hbound
    obtain ⟨fhb, pb, hpb, hpbl, h1, h2, h3, h4⟩ :=
      connect_roundtrip flags ka pl hwq hcid hw hu hpw hbound
    exact ⟨_, _, pb, h1, hpb, h2, h3, rfl, h4⟩
  · intro pid topics hgood hlen hbound
    obtain ⟨fhb, h1, h2, h3, h4⟩ :=
      subscribe_roundtrip pid topics hgood hlen hbound
    exact ⟨_, _, h1, h2, h3, rfl, h4⟩

/-- C1 (witness): the amended round-trip theorem applied to a concrete
QoS-1 Publish packet. -/
theorem C1_witness :
    ∃ p bs,
      packet_publish 2 ⟨[97], some 5⟩ [7] = some (.ok p) ∧
      packet_encode p = some (.ok bs) ∧
      packet_encoded_len p = some bs.length ∧
      packet_decode bs = some (.ok (.done bs.length p)) :=
  C1_roundtrip_amended.2.2.2.1 2 [97] 5 [7] (by decide) (by decide)
    (by decide) (by decide) (by decide)

/-- A completed Connect variable-header parse consumed exactly
`Connect::encoded_len` of the decoded header. -/
theorem connect_vh_decode_consumed {bytes : List Nat} {c : Nat} {v : ConnectVH}
    (h : connect_vh_decode bytes = .ok (.done c v)) :
    c = connect_vh_encoded_len v ∧ c ≤ bytes.length := by
  unfold connect_vh_decode rread at h
  split at h
  · exact absurd h (by simp)
  · exact absurd h (by simp)
  · rename_i o1 name hps
    simp only [] at h
    split at h
    · exact absurd h (by simp)
    · exact absurd h (by simp)
    · rename_i c2 level hpl
      split at h
      · exact absurd h (by simp)
      · split at h
        · exact absurd h (by simp)
        · exact absurd h (by simp)
        · rename_i c3 flags hpf
          split at h
          · exact absurd h (by simp)
          · split at h
            · exact absurd h (by simp)
            · exact absurd h (by simp)
            · rename_i c4 ka hpk
              simp only [Except.ok.injEq, Status.done.injEq] at h
              obtain ⟨hc, hv⟩ := h
              subst hv
              obtain ⟨hc1, hl1⟩ := parse_string_done_spec hps
              obtain ⟨hc2, hl2⟩ := parse_u8_done_spec hpl
              obtain ⟨hc3, hl3⟩ := parse_u8_done_spec hpf
              obtain ⟨hc4, hl4⟩ := parse_u16_done_spec hpk
              rw [List.length_drop] at hl1 hl2 hl3 hl4
              simp only [connect_vh_encoded_len]
              omega

/-- A completed Connack variable-header parse consumed exactly 2 bytes. -/
theorem connack_decode_consumed {bytes : List Nat} {c : Nat} {v : Connack}
    (h : connack_decode bytes = .ok (.done c v)) :
    c = 2 ∧ c ≤ bytes.length := by
  match bytes with
  | [] => exact absurd h (by simp [connack_decode])
  | [b] => exact absurd h (by simp [connack_decode])
  | f :: rc :: rest =>
    rw [connack_decode] at h
    split at h
    · exact absurd h (by simp)
    · split at h
      · exact absurd h (by simp)
      · simp only [Except.ok.injEq, Status.done.injEq] at h
        simp only [List.length_cons]
        omega

/-- A completed PacketIdentifier parse consumed exactly 2 bytes. -/
theorem packet_identifier_decode_consumed {bytes : List Nat} {c : Nat} {v : Nat}
    (h : packet_identifier_decode bytes = .ok (.done c v)) :
    c = 2 ∧ c ≤ bytes.length := by
  unfold packet_identifier_decode rread at h
  split at h
  · exact absurd h (by simp)
  · exact absurd h (by simp)
  · rename_i c2 pid hp
    simp only [Except.ok.injEq, Status.done.injEq] at h
    obtain ⟨hc, hv⟩ := h
    obtain ⟨hc2, hl2⟩ := parse_u16_done_spec hp
    rw [List.length_drop] at hl2
    omega

/-- A completed Publish variable-header parse consumed exactly
`Publish::encoded_len` of the decoded header. -/
theorem publish_vh_decode_consumed {flags : Nat} {bytes : List Nat} {c : Nat}
    {v : PublishVH} (h : publish_vh_decode flags bytes = .ok (.done c v)) :
    c = publish_vh_encoded_len v ∧ c ≤ bytes.length := by
  unfold publish_vh_decode rread at h
  split at h
  · exact absurd h (by simp)
  · split at h
    · exact absurd h (by simp)
    · exact absurd h (by simp)
    · rename_i c1 topic hps
      simp only [] at h
      split at h
      · split at h
        · exact absurd h (by simp)
        · exact absurd h (by simp)
        · rename_i c2 pid hpk
          simp only [Except.ok.injEq, Status.done.injEq] at h
          obtain ⟨hc, hv⟩ := h
          subst hv
          obtain ⟨hc1, hl1⟩ := parse_string_done_spec hps
          obtain ⟨hc2, hl2⟩ := parse_u16_done_spec hpk
          rw [List.length_drop] at hl1 hl2
          simp only [publish_vh_encoded_len]
          rw [show (Option.map (fun _ : Nat => 2) (some pid)).getD 0 = 2 from rfl]
          omega
      · simp only [Except.ok.injEq, Status.done.injEq] at h
        obtain ⟨hc, hv⟩ := h
        subst hv
        obtain ⟨hc1, hl1⟩ := parse_string_done_spec hps
        rw [List.length_drop] at hl1
        simp only [publish_vh_encoded_len]
        rw [show (Option.map (fun _ : Nat => 2) (none : Option Nat)).getD 0 = 0 from rfl]
        omega

/-- A completed `VariableHeader::decode` consumed exactly the decoded
header's `encoded_len`. -/
theorem variable_header_decode_consumed {t : PacketType} {flags : Nat}
    {bytes : List Nat} {c : Nat} {vh : VariableHeader}
    (h : variable_header_decode t flags bytes = some (.ok (.done c vh))) :
    c = variable_header_encoded_len vh ∧ c ≤ bytes.length := by
  cases t
  case connect =>
    simp only [variable_header_decode, Option.some.injEq] at h
    split at h
    · exact absurd h (by simp)
    · exact absurd h (by simp)
    · rename_i c' v' hdec
      simp only [Except.ok.injEq, Status.done.injEq] at h
      obtain ⟨hc, hv⟩ := h
      subst hv hc
      obtain ⟨h1, h2⟩ := connect_vh_decode_consumed hdec
      exact ⟨h1, h2⟩
  case connack =>
    simp only [variable_header_decode, Option.some.injEq] at h
    split at h
    · exact absurd h (by simp)
    · exact absurd h (by simp)
    · rename_i c' v' hdec
      simp only [Except.ok.injEq, Status.done.injEq] at h
      obtain ⟨hc, hv⟩ := h
      subst hv hc
      obtain ⟨h1, h2⟩ := connack_decode_consumed hdec
      exact ⟨h1, h2⟩
  case subscribe =>
    simp only [variable_header_decode, Option.some.injEq] at h
    split at h
    · exact absurd h (by simp)
    · exact absurd h (by simp)
    · rename_i c' v' hdec
      simp only [Except.ok.injEq, Status.done.injEq] at h
      obtain ⟨hc, hv⟩ := h
      subst hv hc
      obtain ⟨h1, h2⟩ := packet_identifier_decode_consumed hdec
      exact ⟨h1, h2⟩
  case suback =>
    simp only [variable_header_decode, Option.some.injEq] at h
    split at h
    · exact absurd h (by simp)
    · exact absurd h (by simp)
    · rename_i c' v' hdec
      simp only [Except.ok.injEq, Status.done.injEq] at h
      obtain ⟨hc, hv⟩ := h
      subst hv hc
      obtain ⟨h1, h2⟩ := packet_identifier_decode_consumed hdec
      exact ⟨h1, h2⟩
  case publish =>
    simp only [variable_header_decode, Option.some.injEq] at h
    split at h
    · exact absurd h (by simp)
    · exact absurd h (by simp)
    · rename_i c' v' hdec
      simp only [Except.ok.injEq, Status.done.injEq] at h
      obtain ⟨hc, hv⟩ := h
      subst hv hc
      obtain ⟨h1, h2⟩ := publish_vh_decode_consumed hdec
      exact ⟨h1, h2⟩
  all_goals exact absurd h (by simp [variable_header_decode])

/-- A completed `Payload::decode` produces a payload whose `encoded_len` is
the full byte range it was given. -/
theorem payload_decode_len {t : PacketType} {bytes : List Nat} {c : Nat}
    {v : Payload} (h : payload_decode t bytes = some (.ok (.done c v))) :
    payload_encoded_len v = bytes.length := by
  cases t
  case suback =>
    simp only [payload_decode, Option.some.injEq] at h
    split at h
    · exact absurd h (by simp)
    · exact absurd h (by simp)
    · rename_i c' v' heq
      simp only [Except.ok.injEq, Status.done.injEq] at h
      obtain ⟨hc, hv⟩ := h
      subst hv
      rw [suback_payload_decode] at heq
      split at heq
      · exact absurd heq (by simp)
      · simp only [Except.ok.injEq, Status.done.injEq] at heq
        obtain ⟨hc', hv'⟩ := heq
        subst hv'
        rfl
  case subscribe =>
    simp only [payload_decode, Option.some.injEq] at h
    split at h
    · exact absurd h (by simp)
    · exact absurd h (by simp)
    · rename_i c' v' heq
      simp only [Except.ok.injEq, Status.done.injEq] at h
      obtain ⟨hc, hv⟩ := h
      subst hv
      rw [subscribe_payload_decode] at heq
      split at heq
      · exact absurd heq (by simp)
      · rename_i hval
        simp only [Except.ok.injEq, Status.done.injEq] at heq
        obtain ⟨hc', hv'⟩ := heq
        subst hv'
        show subscribe_payload_encoded_len (.Decode bytes) = bytes.length
        rw [subscribe_payload_encoded_len]
        show ((sub_items_go bytes.length bytes).map
          (fun t : List Nat × QoS => 2 + t.1.length + 1)).sum = bytes.length
        exact sub_items_sum bytes.length bytes le_rfl hval
  all_goals exact absurd h (by simp [payload_decode])

/-- Invariant of checkpoint 3 of `Packet::decode`: if the variable-header
consumed count is the decoded header's `encoded_len`, the assembled packet
satisfies the remaining-length invariant. -/
theorem packet_decode_payload_invariant {bytes : List Nat} {fho : Nat}
    {fh : FixedHeader} {vhc : Nat} {vh? : Option VariableHeader} {n : Nat}
    {p : Packet}
    (hvhc : vhc = (vh?.map variable_header_encoded_len).getD 0)
    (h : packet_decode_payload bytes fho fh vhc vh? = some (.ok (.done n p))) :
    p.fixed_header.len =
      (p.variable_header.map variable_header_encoded_len).getD 0
        + payload_encoded_len p.payload := by
  simp only [packet_decode_payload] at h
  split at h
  · exact absurd h (by simp)
  · rename_i hle
    split at h
    · exact absurd h (by simp)
    · rename_i hfull
      have hlen : ((bytes.drop (fho + vhc)).take (fh.len - vhc)).length
          = fh.len - vhc := by
        simp only [List.length_take, List.length_drop]
        omega
      split at h
      · exact absurd h (by simp)
      · exact absurd h (by simp)
      · rename_i c' pl hdec
        simp only [Option.some.injEq, Except.ok.injEq, Status.done.injEq] at h
        obtain ⟨hn, hp⟩ := h
        subst hp
        show fh.len = (vh?.map variable_header_encoded_len).getD 0
          + payload_encoded_len pl
        have hpl := payload_decode_len hdec
        rw [hlen] at hpl
        omega
      · rename_i hdec
        simp only [Option.some.injEq, Except.ok.injEq, Status.done.injEq] at h
        obtain ⟨hn, hp⟩ := h
        subst hp
        show fh.len = (vh?.map variable_header_encoded_len).getD 0
          + payload_encoded_len (.bytes
            ((bytes.drop (fho + vhc)).take (fh.len - vhc)))
        show fh.len = (vh?.map variable_header_encoded_len).getD 0
          + ((bytes.drop (fho + vhc)).take (fh.len - vhc)).length
        rw [hlen]
        omega

/-- Any packet returned complete by `Packet::decode` satisfies the
remaining-length invariant. -/
theorem packet_decode_invariant {bytes : List Nat} {n : Nat} {p : Packet}
    (h : packet_decode bytes = some (.ok (.done n p))) :
    p.fixed_header.len =
      (p.variable_header.map variable_header_encoded_len).getD 0
        + payload_encoded_len p.payload := by
  rw [packet_decode.eq_def] at h
  split at h
  · exact absurd h (by simp)
  · exact absurd h (by simp)
  · split at h
    · exact absurd h (by simp)
    · exact absurd h (by simp)
    · rename_i vhc vh hvh
      exact packet_decode_payload_invariant
        (by simp [(variable_header_decode_consumed hvh).1]) h
    · exact packet_decode_payload_invariant (by simp) h

/-- Any packet built by `Packet::packet` satisfies the remaining-length
invariant by construction. -/
theorem packet_mk_invariant {t : PacketType} {flags : Nat}
    {vh : Option VariableHeader} {pl : Payload} {p : Packet}
    (h : packet_mk t flags vh pl = .ok p) :
    p.fixed_header.len =
      (p.variable_header.map variable_header_encoded_len).getD 0
        + payload_encoded_len p.payload := by
  simp only [packet_mk] at h
  split at h
  · exact absurd h (by simp)
  · simp only [Except.ok.injEq] at h
    subst h
    rfl

/-- C9: the remaining-length field of the fixed header equals the variable
header's `encoded_len` (0 when absent) plus the payload's `encoded_len`,
both for every packet returned complete by `Packet::decode` and for every
packet built by `Packet::packet` (hence by the `Packet::connect`,
`::subscribe`, `::publish` and `::puback` constructors), as well as for the
constant `Packet::pingreq` and `Packet::pingresp` packets. -/
theorem C9_remaining_length_invariant :
    (∀ bytes n p, packet_decode bytes = some (.ok (.done n p)) →
      p.fixed_header.len =
        (p.variable_header.map variable_header_encoded_len).getD 0
          + payload_encoded_len p.payload) ∧
    (∀ t flags vh pl p, packet_mk t flags vh pl = .ok p →
      p.fixed_header.len =
        (p.variable_header.map variable_header_encoded_len).getD 0
          + payload_encoded_len p.payload) ∧
    packet_pingreq.fixed_header.len =
      (packet_pingreq.variable_header.map variable_header_encoded_len).getD 0
        + payload_encoded_len packet_pingreq.payload ∧
    packet_pingresp.fixed_header.len =
      (packet_pingresp.variable_header.map variable_header_encoded_len).getD 0
        + payload_encoded_len packet_pingresp.payload :=
  ⟨fun _ _ _ h => packet_decode_invariant h,
   fun _ _ _ _ _ h => packet_mk_invariant h, rfl, rfl⟩

/-- C9 (witness): the decode direction of the invariant applied to a
concrete decoded Puback packet. -/
theorem C9_witness :
    packet_decode [64, 2, 0, 5] =
      some (.ok (.done 4 ⟨⟨.puback, 0, 2⟩, none, .bytes [0, 5]⟩)) ∧
    (⟨⟨.puback, 0, 2⟩, none, .bytes [0, 5]⟩ : Packet).fixed_header.len =
      ((⟨⟨.puback, 0, 2⟩, none, .bytes [0, 5]⟩ : Packet).variable_header.map
        variable_header_encoded_len).getD 0
        + payload_encoded_len
            (⟨⟨.puback, 0, 2⟩, none, .bytes [0, 5]⟩ : Packet).payload :=
  ⟨rfl, C9_remaining_length_invariant.1 [64, 2, 0, 5] 4 _ rfl⟩

/-! ## Lemmas: incremental parsing (C3) -/

/-- `parse_u8` parses incrementally. -/
theorem parse_u8_incremental : parser_incremental parse_u8 := by
  intro bytes c v h
  match bytes with
  | [] => exact absurd h (by rw [show parse_u8 [] = .ok (.more 1) from rfl]; simp)
  | b :: t =>
    rw [show parse_u8 (b :: t) = .ok (.done 1 b) from rfl] at h
    simp only [Except.ok.injEq, Status.done.injEq] at h
    obtain ⟨hc, hv⟩ := h
    subst hv
    constructor
    · intro j hj
      obtain ⟨j', rfl⟩ : ∃ j', j = j' + 1 := ⟨j - 1, by omega⟩
      rw [show (b :: t).take (j' + 1) = b :: t.take j' from rfl]
      rw [show parse_u8 (b :: t.take j') = .ok (.done 1 b) from rfl, hc]
    · intro k hk
      have hk0 : k = 0 := by omega
      subst hk0
      exact ⟨1, by omega, by omega, rfl⟩

/-- `parse_u16` parses incrementally. -/
theorem parse_u16_incremental : parser_incremental parse_u16 := by
  intro bytes c v h
  match bytes with
  | [] => exact absurd h (by rw [show parse_u16 [] = .ok (.more 2) from rfl]; simp)
  | [b] => exact absurd h (by rw [show parse_u16 [b] = .ok (.more 1) from rfl]; simp)
  | b0 :: b1 :: t =>
    rw [parse_u16_cons] at h
    simp only [Except.ok.injEq, Status.done.injEq] at h
    obtain ⟨hc, hv⟩ := h
    subst hv
    constructor
    · intro j hj
      obtain ⟨j', rfl⟩ : ∃ j', j = j' + 2 := ⟨j - 2, by omega⟩
      rw [show (b0 :: b1 :: t).take (j' + 2) = b0 :: b1 :: t.take j' from rfl]
      rw [parse_u16_cons, hc]
    · intro k hk
      match k with
      | 0 => exact ⟨2, by omega, by omega, rfl⟩
      | 1 => exact ⟨1, by omega, by omega, rfl⟩
      | k + 2 => exact absurd hk (by omega)

/-- `parse_string` parses incrementally. -/
theorem parse_string_incremental : parser_incremental parse_string := by
  intro bytes c v h
  match bytes with
  | [] => exact absurd h (by rw [show parse_string [] = .ok (.more 2) from rfl]; simp)
  | [b] => exact absurd h (by rw [show parse_string [b] = .ok (.more 1) from rfl]; simp)
  | b0 :: b1 :: rest =>
    rw [parse_string_cons] at h
    split at h
    · exact absurd h (by simp)
    · rename_i hfull
      split at h
      · exact absurd h (by simp)
      · rename_i cs hutf
        split at h
        · exact absurd h (by simp)
        · rename_i hcont
          simp only [Except.ok.injEq, Status.done.injEq] at h
          obtain ⟨hc, hv⟩ := h
          subst hv
          constructor
          · intro j hj
            obtain ⟨j', rfl⟩ : ∃ j', j = j' + 2 := ⟨j - 2, by omega⟩
            rw [show (b0 :: b1 :: rest).take (j' + 2)
              = b0 :: b1 :: rest.take j' from rfl]
            rw [parse_string_cons]
            rw [if_neg (by simp only [List.length_take]; omega)]
            rw [show (rest.take j').take (b0 * 256 + b1)
              = rest.take (b0 * 256 + b1) from by
                rw [List.take_take, Nat.min_eq_left (by omega)]]
            rw [hutf]
            show (if cs.contains 0 = true
              then (Except.error DecodeError.utf8 : Parsed (List Nat))
              else .ok (.done (2 + (b0 * 256 + b1))
                (rest.take (b0 * 256 + b1)))) = _
            rw [if_neg hcont, hc]
          · intro k hk
            match k with
            | 0 => exact ⟨2, by omega, by omega, rfl⟩
            | 1 => exact ⟨1, by omega, by omega, rfl⟩
            | k + 2 =>
              refine ⟨b0 * 256 + b1 - k, by omega, by omega, ?_⟩
              rw [show (b0 :: b1 :: rest).take (k + 2)
                = b0 :: b1 :: rest.take k from rfl]
              rw [parse_string_cons]
              rw [if_pos (by simp only [List.length_take]; omega)]
              rw [show (rest.take k).length = k from by
                rw [List.length_take]; omega]

/-- The remaining-length loop parses incrementally: completion needs
`o - idx` more bytes, any shorter prefix is `Partial(1)`. -/
theorem prl_go_incremental : ∀ bs : List Nat, ∀ m val idx o w,
    prl_go bs m val idx = .ok (.done o w) →
    idx < o ∧
    (∀ j, o - idx ≤ j → prl_go (bs.take j) m val idx = .ok (.done o w)) ∧
    (∀ k, k < o - idx → prl_go (bs.take k) m val idx = .ok (.more 1)) := by
  intro bs
  induction bs with
  | nil =>
    intro m val idx o w h
    rw [prl_go_nil] at h
    split at h <;> exact absurd h (by simp)
  | cons b rest IH =>
    intro m val idx o w h
    rw [prl_go_cons] at h
    split at h
    · exact absurd h (by simp)
    · rename_i hm
      split at h
      · rename_i hb
        simp only [Except.ok.injEq, Status.done.injEq] at h
        obtain ⟨ho, hw⟩ := h
        subst hw
        refine ⟨by omega, ?_, ?_⟩
        · intro j hj
          obtain ⟨j', rfl⟩ : ∃ j', j = j' + 1 := ⟨j - 1, by omega⟩
          rw [show (b :: rest).take (j' + 1) = b :: rest.take j' from rfl]
          rw [prl_go_cons, if_neg hm, if_pos hb, ho]
        · intro k hk
          have hk0 : k = 0 := by omega
          subst hk0
          rw [List.take_zero, prl_go_nil, if_neg hm]
      · rename_i hb
        obtain ⟨hlt, hstab, hpart⟩ := IH (m * 128) (val + b % 128 * m) (idx + 1) o w h
        refine ⟨by omega, ?_, ?_⟩
        · intro j hj
          obtain ⟨j', rfl⟩ : ∃ j', j = j' + 1 := ⟨j - 1, by omega⟩
          rw [show (b :: rest).take (j' + 1) = b :: rest.take j' from rfl]
          rw [prl_go_cons, if_neg hm, if_neg hb]
          exact hstab j' (by omega)
        · intro k hk
          match k with
          | 0 => rw [List.take_zero, prl_go_nil, if_neg hm]
          | k + 1 =>
            rw [show (b :: rest).take (k + 1) = b :: rest.take k from rfl]
            rw [prl_go_cons, if_neg hm, if_neg hb]
            exact hpart k (by omega)

/-- `FixedHeader::decode` parses incrementally. -/
theorem fixed_header_decode_incremental : parser_incremental fixed_header_decode := by
  intro bytes c fh h
  match bytes with
  | [] =>
    exact absurd h (by
      rw [show fixed_header_decode [] = .ok (.more 2) from rfl]; simp)
  | [b] =>
    exact absurd h (by
      rw [show fixed_header_decode [b] = .ok (.more 1) from rfl]; simp)
  | b0 :: b1 :: rest =>
    rw [show fixed_header_decode (b0 :: b1 :: rest)
      = (match parse_packet_type b0 with
         | .error e => .error e
         | .ok (t, flags) =>
           match parse_remaining_length (b1 :: rest) with
           | .error e => .error e
           | .ok (.more n) => .ok (.more n)
           | .ok (.done c len) => .ok (.done (1 + c) ⟨t, flags, len⟩)
         : Parsed FixedHeader) from rfl] at h
    split at h
    · exact absurd h (by simp)
    · rename_i t flags hppt
      rw [parse_remaining_length] at h
      split at h
      · exact absurd h (by simp)
      · exact absurd h (by simp)
      · rename_i c' len hprl
        simp only [Except.ok.injEq, Status.done.injEq] at h
        obtain ⟨hc, hfh⟩ := h
        subst hfh
        obtain ⟨hlt, hstab, hpart⟩ := prl_go_incremental (b1 :: rest) 1 0 0 c' len hprl
        constructor
        · intro j hj
          obtain ⟨j'', rfl⟩ : ∃ j'', j = j'' + 2 := ⟨j - 2, by omega⟩
          rw [show (b0 :: b1 :: rest).take (j'' + 2)
            = b0 :: b1 :: rest.take j'' from rfl]
          rw [show fixed_header_decode (b0 :: b1 :: rest.take j'')
            = (match parse_packet_type b0 with
               | .error e => .error e
               | .ok (t, flags) =>
                 match parse_remaining_length (b1 :: rest.take j'') with
                 | .error e => .error e
                 | .ok (.more n) => .ok (.more n)
                 | .ok (.done c len) => .ok (.done (1 + c) ⟨t, flags, len⟩)
               : Parsed FixedHeader) from rfl]
          rw [hppt, parse_remaining_length]
          rw [show (b1 :: rest.take j'') = (b1 :: rest).take (j'' + 1) from rfl]
          rw [hstab (j'' + 1) (by omega)]
          show (Except.ok (Status.done (1 + c') ⟨t, flags, len⟩)
            : Parsed FixedHeader) = _
          rw [hc]
        · intro k hk
          match k with
          | 0 => exact ⟨2, by omega, by omega, rfl⟩
          | 1 => exact ⟨1, by omega, by omega, rfl⟩
          | k + 2 =>
            refine ⟨1, by omega, by omega, ?_⟩
            rw [show (b0 :: b1 :: rest).take (k + 2)
              = b0 :: b1 :: rest.take k from rfl]
            rw [show fixed_header_decode (b0 :: b1 :: rest.take k)
              = (match parse_packet_type b0 with
                 | .error e => .error e
                 | .ok (t, flags) =>
                   match parse_remaining_length (b1 :: rest.take k) with
                   | .error e => .error e
                   | .ok (.more n) => .ok (.more n)
                   | .ok (.done c len) => .ok (.done (1 + c) ⟨t, flags, len⟩)
                 : Parsed FixedHeader) from rfl]
            rw [hppt, parse_remaining_length]
            rw [show (b1 :: rest.take k) = (b1 :: rest).take (k + 1) from rfl]
            rw [hpart (k + 1) (by omega)]

/-- Commuting a prefix with an offset: dropping `off` from a `j`-prefix is
the `(j - off)`-prefix of the suffix. -/
theorem take_then_drop (bytes : List Nat) (off j : Nat) :
    (bytes.take j).drop off = (bytes.drop off).take (j - off) := by
  induction bytes generalizing off j with
  | nil => simp
  | cons b rest IH =>
    match j, off with
    | 0, off => simp
    | j + 1, 0 => simp
    | j + 1, off + 1 =>
      rw [show (b :: rest).take (j + 1) = b :: rest.take j from rfl,
        List.drop_succ_cons, List.drop_succ_cons, IH,
        show j + 1 - (off + 1) = j - off from by omega]

/-- `read!` on a completed sub-parse runs the continuation. -/
theorem rread_done {α β : Type} (f : List Nat → Parsed α) (bytes : List Nat)
    (off : Nat) (k : Nat → α → Parsed β) {c : Nat} {v : α}
    (h : f (bytes.drop off) = .ok (.done c v)) :
    rread f bytes off k = k (off + c) v := by
  rw [rread, h]

/-- `read!` on a `Partial` sub-parse propagates the `Partial`. -/
theorem rread_more {α β : Type} (f : List Nat → Parsed α) (bytes : List Nat)
    (off : Nat) (k : Nat → α → Parsed β) {n : Nat}
    (h : f (bytes.drop off) = .ok (.more n)) :
    rread f bytes off k = .ok (.more n) := by
  rw [rread, h]

/-- `PacketIdentifier::decode` parses incrementally. -/
theorem packet_identifier_decode_incremental :
    parser_incremental packet_identifier_decode := by
  intro bytes c v h
  unfold packet_identifier_decode rread at h
  split at h
  · exact absurd h (by simp)
  · exact absurd h (by simp)
  · rename_i c2 pid hp
    simp only [Except.ok.injEq, Status.done.injEq] at h
    obtain ⟨hc, hv⟩ := h
    subst hv
    rw [List.drop_zero] at hp
    obtain ⟨hstab, hpart⟩ := parse_u16_incremental bytes c2 pid hp
    obtain ⟨hc2, _⟩ := parse_u16_done_spec hp
    constructor
    · intro j hj
      rw [packet_identifier_decode,
        rread_done parse_u16 (bytes.take j) 0 _
          (by rw [List.drop_zero]; exact hstab j (by omega))]
      show Except.ok (Status.done (0 + c2) pid) = _
      rw [hc]
    · intro k hk
      obtain ⟨m, hm1, hm2, hm3⟩ := hpart k (by omega)
      refine ⟨m, hm1, by omega, ?_⟩
      rw [packet_identifier_decode,
        rread_more parse_u16 (bytes.take k) 0 _
          (by rw [List.drop_zero]; exact hm3)]

/-- `Connack::decode` parses incrementally. -/
theorem connack_decode_incremental : parser_incremental connack_decode := by
  intro bytes c v h
  match bytes with
  | [] => exact absurd h (by simp [connack_decode])
  | [b] => exact absurd h (by simp [connack_decode])
  | f :: rc :: rest =>
    rw [connack_decode] at h
    split at h
    · exact absurd h (by simp)
    · rename_i hflag
      split at h
      · exact absurd h (by simp)
      · rename_i code hcode
        simp only [Except.ok.injEq, Status.done.injEq] at h
        obtain ⟨hc, hv⟩ := h
        subst hv
        constructor
        · intro j hj
          obtain ⟨j', rfl⟩ : ∃ j', j = j' + 2 := ⟨j - 2, by omega⟩
          rw [show (f :: rc :: rest).take (j' + 2)
            = f :: rc :: rest.take j' from rfl]
          rw [connack_decode, if_neg hflag, hcode]
          show (Except.ok (Status.done 2 (⟨f, code⟩ : Connack))
            : Parsed Connack) = _
          rw [hc]
        · intro k hk
          match k with
          | 0 => exact ⟨2, by omega, by omega, by rw [List.take_zero]; rfl⟩
          | 1 => exact ⟨1, by omega, by omega, rfl⟩
          | k + 2 => exact absurd hk (by omega)

/-- `Connect::decode` (variable header) parses incrementally. -/
theorem connect_vh_decode_incremental : parser_incremental connect_vh_decode := by
  intro bytes c v h
  unfold connect_vh_decode rread at h
  split at h
  · exact absurd h (by simp)
  · exact absurd h (by simp)
  · rename_i c1 name hps
    simp only [] at h
    split at h
    · exact absurd h (by simp)
    · exact absurd h (by simp)
    · rename_i c2 level hpl
      split at h
      · exact absurd h (by simp)
      · rename_i hlvl
        split at h
        · exact absurd h (by simp)
        · exact absurd h (by simp)
        · rename_i c3 flags hpf
          split at h
          · exact absurd h (by simp)
          · rename_i qv hqv
            split at h
            · exact absurd h (by simp)
            · exact absurd h (by simp)
            · rename_i c4 ka hpk
              simp only [Except.ok.injEq, Status.done.injEq] at h
              obtain ⟨hc, hv⟩ := h
              subst hv
              rw [List.drop_zero] at hps
              obtain ⟨hS1, hS2⟩ := parse_string_incremental bytes c1 name hps
              obtain ⟨hU11, hU12⟩ := parse_u8_incremental _ c2 level hpl
              obtain ⟨hU21, hU22⟩ := parse_u8_incremental _ c3 flags hpf
              obtain ⟨hU31, hU32⟩ := parse_u16_incremental _ c4 ka hpk
              obtain ⟨hc1e, hl1⟩ := parse_string_done_spec hps
              obtain ⟨hc2e, hl2⟩ := parse_u8_done_spec hpl
              obtain ⟨hc3e, hl3⟩ := parse_u8_done_spec hpf
              obtain ⟨hc4e, hl4⟩ := parse_u16_done_spec hpk
              constructor
              · intro j hj
                rw [connect_vh_decode,
                  rread_done parse_string (bytes.take j) 0 _
                    (by rw [List.drop_zero]; exact hS1 j (by omega))]
                rw [rread_done parse_u8 (bytes.take j) (0 + c1) _
                  (by rw [take_then_drop]
                      exact hU11 (j - (0 + c1)) (by omega))]
                rw [if_neg hlvl]
                rw [rread_done parse_u8 (bytes.take j) (0 + c1 + c2) _
                  (by rw [take_then_drop]
                      exact hU21 (j - (0 + c1 + c2)) (by omega))]
                rw [hqv]
                show rread parse_u16 (bytes.take j) (0 + c1 + c2 + c3)
                  (fun o4 keep_alive =>
                    (.ok (.done o4 ⟨name, flags, keep_alive⟩)
                      : Parsed ConnectVH)) = _
                rw [rread_done parse_u16 (bytes.take j) (0 + c1 + c2 + c3) _
                  (by rw [take_then_drop]
                      exact hU31 (j - (0 + c1 + c2 + c3)) (by omega))]
                show (Except.ok (Status.done (0 + c1 + c2 + c3 + c4)
                  (⟨name, flags, ka⟩ : ConnectVH)) : Parsed ConnectVH) = _
                rw [hc]
              · intro k hk
                by_cases h1 : k < c1
                · obtain ⟨m, hm1, hm2, hm3⟩ := hS2 k h1
                  refine ⟨m, hm1, by omega, ?_⟩
                  rw [connect_vh_decode,
                    rread_more parse_string (bytes.take k) 0 _
                      (by rw [List.drop_zero]; exact hm3)]
                · by_cases h2 : k < c1 + c2
                  · obtain ⟨m, hm1, hm2, hm3⟩ := hU12 (k - (0 + c1)) (by omega)
                    refine ⟨m, hm1, by omega, ?_⟩
                    rw [connect_vh_decode,
                      rread_done parse_string (bytes.take k) 0 _
                        (by rw [List.drop_zero]; exact hS1 k (by omega))]
                    rw [rread_more parse_u8 (bytes.take k) (0 + c1) _
                      (by rw [take_then_drop]; exact hm3)]
                  · by_cases h3 : k < c1 + c2 + c3
                    · obtain ⟨m, hm1, hm2, hm3⟩ := hU22 (k - (0 + c1 + c2)) (by omega)
                      refine ⟨m, hm1, by omega, ?_⟩
                      rw [connect_vh_decode,
                        rread_done parse_string (bytes.take k) 0 _
                          (by rw [List.drop_zero]; exact hS1 k (by omega))]
                      rw [rread_done parse_u8 (bytes.take k) (0 + c1) _
                        (by rw [take_then_drop]
                            exact hU11 (k - (0 + c1)) (by omega))]
                      rw [if_neg hlvl]
                      rw [rread_more parse_u8 (bytes.take k) (0 + c1 + c2) _
                        (by rw [take_then_drop]; exact hm3)]
                    · obtain ⟨m, hm1, hm2, hm3⟩ :=
                        hU32 (k - (0 + c1 + c2 + c3)) (by omega)
                      refine ⟨m, hm1, by omega, ?_⟩
                      rw [connect_vh_decode,
                        rread_done parse_string (bytes.take k) 0 _
                          (by rw [List.drop_zero]; exact hS1 k (by omega))]
                      rw [rread_done parse_u8 (bytes.take k) (0 + c1) _
                        (by rw [take_then_drop]
                            exact hU11 (k - (0 + c1)) (by omega))]
                      rw [if_neg hlvl]
                      rw [rread_done parse_u8 (bytes.take k) (0 + c1 + c2) _
                        (by rw [take_then_drop]
                            exact hU21 (k - (0 + c1 + c2)) (by omega))]
                      rw [hqv]
                      show rread parse_u16 (bytes.take k) (0 + c1 + c2 + c3)
                        (fun o4 keep_alive =>
                          (.ok (.done o4 ⟨name, flags, keep_alive⟩)
                            : Parsed ConnectVH)) = _
                      rw [rread_more parse_u16 (bytes.take k) (0 + c1 + c2 + c3) _
                        (by rw [take_then_drop]; exact hm3)]

/-- `Publish::decode` (variable header) parses incrementally for every flag
byte. -/
theorem publish_vh_decode_incremental (flags : Nat) :
    parser_incremental (publish_vh_decode flags) := by
  intro bytes c v h
  rw [publish_vh_decode] at h
  split at h
  · exact absurd h (by simp)
  · rename_i qv hqv
    have hunf : ∀ bs : List Nat, publish_vh_decode flags bs =
        rread parse_string bs 0 (fun o1 topic =>
          if qv ≠ QoS.atMostOnce then
            rread parse_u16 bs o1 (fun o2 pid =>
              (.ok (.done o2 ⟨topic, some pid⟩) : Parsed PublishVH))
          else .ok (.done o1 ⟨topic, none⟩)) := by
      intro bs
      rw [publish_vh_decode, hqv]
    unfold rread at h
    split at h
    · exact absurd h (by simp)
    · exact absurd h (by simp)
    · rename_i c1 topic hps
      simp only [] at h
      split at h
      · rename_i hqne
        split at h
        · exact absurd h (by simp)
        · exact absurd h (by simp)
        · rename_i c2 pid hpk
          simp only [Except.ok.injEq, Status.done.injEq] at h
          obtain ⟨hc, hv⟩ := h
          subst hv
          rw [List.drop_zero] at hps
          obtain ⟨hS1, hS2⟩ := parse_string_incremental bytes c1 topic hps
          obtain ⟨hU1, hU2⟩ := parse_u16_incremental _ c2 pid hpk
          obtain ⟨hc1e, hl1⟩ := parse_string_done_spec hps
          obtain ⟨hc2e, hl2⟩ := parse_u16_done_spec hpk
          constructor
          · intro j hj
            rw [hunf,
              rread_done parse_string (bytes.take j) 0 _
                (by rw [List.drop_zero]; exact hS1 j (by omega))]
            rw [if_pos hqne]
            rw [rread_done parse_u16 (bytes.take j) (0 + c1) _
              (by rw [take_then_drop]
                  exact hU1 (j - (0 + c1)) (by omega))]
            show (Except.ok (Status.done (0 + c1 + c2)
              (⟨topic, some pid⟩ : PublishVH)) : Parsed PublishVH) = _
            rw [hc]
          · intro k hk
            by_cases h1 : k < c1
            · obtain ⟨m, hm1, hm2, hm3⟩ := hS2 k h1
              refine ⟨m, hm1, by omega, ?_⟩
              rw [hunf,
                rread_more parse_string (bytes.take k) 0 _
                  (by rw [List.drop_zero]; exact hm3)]
            · obtain ⟨m, hm1, hm2, hm3⟩ := hU2 (k - (0 + c1)) (by omega)
              refine ⟨m, hm1, by omega, ?_⟩
              rw [hunf,
                rread_done parse_string (bytes.take k) 0 _
                  (by rw [List.drop_zero]; exact hS1 k (by omega))]
              rw [if_pos hqne]
              rw [rread_more parse_u16 (bytes.take k) (0 + c1) _
                (by rw [take_then_drop]; exact hm3)]
      · rename_i hqe
        simp only [Except.ok.injEq, Status.done.injEq] at h
        obtain ⟨hc, hv⟩ := h
        subst hv
        rw [List.drop_zero] at hps
        obtain ⟨hS1, hS2⟩ := parse_string_incremental bytes c1 topic hps
        constructor
        · intro j hj
          rw [hunf,
            rread_done parse_string (bytes.take j) 0 _
              (by rw [List.drop_zero]; exact hS1 j (by omega))]
          rw [if_neg hqe]
          rw [hc]
        · intro k hk
          obtain ⟨m, hm1, hm2, hm3⟩ := hS2 k (by omega)
          refine ⟨m, hm1, by omega, ?_⟩
          rw [hunf,
            rread_more parse_string (bytes.take k) 0 _
              (by rw [List.drop_zero]; exact hm3)]

/-- The `VariableHeader::decode` dispatch depends only on the packet type:
a type with no variable-header decoder yields `None` on every input. -/
theorem variable_header_decode_none {t : PacketType} {flags : Nat}
    {bs : List Nat} (h : variable_header_decode t flags bs = none)
    (bs' : List Nat) : variable_header_decode t flags bs' = none := by
  cases t
  case connect => exact absurd h (by simp [variable_header_decode])
  case connack => exact absurd h (by simp [variable_header_decode])
  case subscribe => exact absurd h (by simp [variable_header_decode])
  case suback => exact absurd h (by simp [variable_header_decode])
  case publish => exact absurd h (by simp [variable_header_decode])
  all_goals rfl

/-- `VariableHeader::decode` parses incrementally (for the types that have
a variable-header decoder). -/
theorem variable_header_decode_incremental {t : PacketType} {flags : Nat}
    {bs : List Nat} {vhc : Nat} {vh : VariableHeader}
    (h : variable_header_decode t flags bs = some (.ok (.done vhc vh))) :
    (∀ j, vhc ≤ j → variable_header_decode t flags (bs.take j)
      = some (.ok (.done vhc vh))) ∧
    (∀ k, k < vhc → ∃ m, 1 ≤ m ∧ k + m ≤ vhc ∧
      variable_header_decode t flags (bs.take k) = some (.ok (.more m))) := by
  cases t
  case connect =>
    simp only [variable_header_decode, Option.some.injEq] at h
    split at h
    · exact absurd h (by simp)
    · exact absurd h (by simp)
    · rename_i c' v' hdec
      simp only [Except.ok.injEq, Status.done.injEq] at h
      obtain ⟨hc, hv⟩ := h
      subst hv hc
      obtain ⟨hstab, hpart⟩ := connect_vh_decode_incremental bs c' v' hdec
      constructor
      · intro j hj
        simp only [variable_header_decode, hstab j hj]
      · intro k hk
        obtain ⟨m, hm1, hm2, hm3⟩ := hpart k hk
        exact ⟨m, hm1, hm2, by simp only [variable_header_decode, hm3]⟩
  case connack =>
    simp only [variable_header_decode, Option.some.injEq] at h
    split at h
    · exact absurd h (by simp)
    · exact absurd h (by simp)
    · rename_i c' v' hdec
      simp only [Except.ok.injEq, Status.done.injEq] at h
      obtain ⟨hc, hv⟩ := h
      subst hv hc
      obtain ⟨hstab, hpart⟩ := connack_decode_incremental bs c' v' hdec
      constructor
      · intro j hj
        simp only [variable_header_decode, hstab j hj]
      · intro k hk
        obtain ⟨m, hm1, hm2, hm3⟩ := hpart k hk
        exact ⟨m, hm1, hm2, by simp only [variable_header_decode, hm3]⟩
  case subscribe =>
    simp only [variable_header_decode, Option.some.injEq] at h
    split at h
    · exact absurd h (by simp)
    · exact absurd h (by simp)
    · rename_i c' v' hdec
      simp only [Except.ok.injEq, Status.done.injEq] at h
      obtain ⟨hc, hv⟩ := h
      subst hv hc
      obtain ⟨hstab, hpart⟩ := packet_identifier_decode_incremental bs c' v' hdec
      constructor
      · intro j hj
        simp only [variable_header_decode, hstab j hj]
      · intro k hk
        obtain ⟨m, hm1, hm2, hm3⟩ := hpart k hk
        exact ⟨m, hm1, hm2, by simp only [variable_header_decode, hm3]⟩
  case suback =>
    simp only [variable_header_decode, Option.some.injEq] at h
    split at h
    · exact absurd h (by simp)
    · exact absurd h (by simp)
    · rename_i c' v' hdec
      simp only [Except.ok.injEq, Status.done.injEq] at h
      obtain ⟨hc, hv⟩ := h
      subst hv hc
      obtain ⟨hstab, hpart⟩ := packet_identifier_decode_incremental bs c' v' hdec
      constructor
      · intro j hj
        simp only [variable_header_decode, hstab j hj]
      · intro k hk
        obtain ⟨m, hm1, hm2, hm3⟩ := hpart k hk
        exact ⟨m, hm1, hm2, by simp only [variable_header_decode, hm3]⟩
  case publish =>
    simp only [variable_header_decode, Option.some.injEq] at h
    split at h
    · exact absurd h (by simp)
    · exact absurd h (by simp)
    · rename_i c' v' hdec
      simp only [Except.ok.injEq, Status.done.injEq] at h
      obtain ⟨hc, hv⟩ := h
      subst hv hc
      obtain ⟨hstab, hpart⟩ := publish_vh_decode_incremental flags bs c' v' hdec
      constructor
      · intro j hj
        simp only [variable_header_decode, hstab j hj]
      · intro k hk
        obtain ⟨m, hm1, hm2, hm3⟩ := hpart k hk
        exact ⟨m, hm1, hm2, by simp only [variable_header_decode, hm3]⟩
  all_goals exact absurd h (by simp [variable_header_decode])

/-- A complete result of checkpoint 3 of `Packet::decode` fixes the consumed
count at `fixed_header_offset + remaining_length` and means the variable
header fit inside the remaining length and the payload was fully present. -/
theorem packet_decode_payload_done_facts {bytes : List Nat} {fho : Nat}
    {fh : FixedHeader} {vhc : Nat} {vh? : Option VariableHeader} {n : Nat}
    {p : Packet}
    (h : packet_decode_payload bytes fho fh vhc vh? = some (.ok (.done n p))) :
    n = fho + fh.len ∧ vhc ≤ fh.len ∧
    fh.len - vhc ≤ bytes.length - (fho + vhc) := by
  simp only [packet_decode_payload] at h
  split at h
  · exact absurd h (by simp)
  · rename_i hle
    split at h
    · exact absurd h (by simp)
    · rename_i hneed
      refine ⟨?_, by omega, by omega⟩
      split at h
      · exact absurd h (by simp)
      · exact absurd h (by simp)
      · simp only [Option.some.injEq, Except.ok.injEq, Status.done.injEq] at h
        obtain ⟨h1, _⟩ := h
        omega
      · simp only [Option.some.injEq, Except.ok.injEq, Status.done.injEq] at h
        obtain ⟨h1, _⟩ := h
        omega

/-- C3: decoding any strict prefix of a complete encoded packet yields
`Partial(m)` with `1 ≤ m` and `k + m` within the packet, never `Complete`
and never an error caused by the truncation. -/
theorem C3_prefix_partial :
    ∀ bytes N p, packet_decode bytes = some (.ok (.done N p)) →
      bytes.length = N →
      ∀ k, k < N → ∃ m, 1 ≤ m ∧ k + m ≤ N ∧
        packet_decode (bytes.take k) = some (.ok (.more m)) := by
  intro bytes N p h hN k hk
  rw [packet_decode.eq_def] at h
  split at h
  · exact absurd h (by simp)
  · exact absurd h (by simp)
  · rename_i fho fh hfh
    obtain ⟨hfstab, hfpart⟩ := fixed_header_decode_incremental bytes fho fh hfh
    split at h
    · exact absurd h (by simp)
    · exact absurd h (by simp)
    · rename_i vhc vh hvh
      obtain ⟨hNn, hle, hav⟩ := packet_decode_payload_done_facts h
      obtain ⟨hvstab, hvpart⟩ := variable_header_decode_incremental hvh
      by_cases hkf : k < fho
      · obtain ⟨m, hm1, hm2, hm3⟩ := hfpart k hkf
        refine ⟨m, hm1, by omega, ?_⟩
        rw [packet_decode.eq_def, hm3]
      · by_cases hkv : k - fho < vhc
        · obtain ⟨m, hm1, hm2, hm3⟩ := hvpart (k - fho) hkv
          refine ⟨m, hm1, by omega, ?_⟩
          rw [packet_decode.eq_def, hfstab k (by omega)]
          show (match variable_header_decode fh.ptype fh.flags
              ((bytes.take k).drop fho) with
            | some (.error e) => some (.error e)
            | some (.ok (.more n)) => some (.ok (.more n))
            | some (.ok (.done vhc vh)) =>
              packet_decode_payload (bytes.take k) fho fh vhc (some vh)
            | none => packet_decode_payload (bytes.take k) fho fh 0 none
            : Option (Parsed Packet)) = _
          rw [take_then_drop, hm3]
        · refine ⟨fho + fh.len - k, by omega, by omega, ?_⟩
          rw [packet_decode.eq_def, hfstab k (by omega)]
          show (match variable_header_decode fh.ptype fh.flags
              ((bytes.take k).drop fho) with
            | some (.error e) => some (.error e)
            | some (.ok (.more n)) => some (.ok (.more n))
            | some (.ok (.done vhc vh)) =>
              packet_decode_payload (bytes.take k) fho fh vhc (some vh)
            | none => packet_decode_payload (bytes.take k) fho fh 0 none
            : Option (Parsed Packet)) = _
          rw [take_then_drop, hvstab (k - fho) (by omega)]
          show packet_decode_payload (bytes.take k) fho fh vhc (some vh) = _
          rw [packet_decode_payload]
          rw [if_neg (by omega)]
          simp only []
          rw [show (bytes.take k).length = k from by
            rw [List.length_take]; omega]
          rw [Nat.min_eq_left (by omega)]
          rw [if_pos (by omega)]
          rw [show fh.len - vhc - (k - (fho + vhc)) = fho + fh.len - k
            from by omega]
    · rename_i hvh
      obtain ⟨hNn, hle, hav⟩ := packet_decode_payload_done_facts h
      by_cases hkf : k < fho
      · obtain ⟨m, hm1, hm2, hm3⟩ := hfpart k hkf
        refine ⟨m, hm1, by omega, ?_⟩
        rw [packet_decode.eq_def, hm3]
      · refine ⟨fho + fh.len - k, by omega, by omega, ?_⟩
        rw [packet_decode.eq_def, hfstab k (by omega)]
        show (match variable_header_decode fh.ptype fh.flags
            ((bytes.take k).drop fho) with
          | some (.error e) => some (.error e)
          | some (.ok (.more n)) => some (.ok (.more n))
          | some (.ok (.done vhc vh)) =>
            packet_decode_payload (bytes.take k) fho fh vhc (some vh)
          | none => packet_decode_payload (bytes.take k) fho fh 0 none
          : Option (Parsed Packet)) = _
        rw [variable_header_decode_none hvh ((bytes.take k).drop fho)]
        show packet_decode_payload (bytes.take k) fho fh 0 none = _
        rw [packet_decode_payload]
        rw [if_neg (by omega)]
        simp only []
        rw [show (bytes.take k).length = k from by
          rw [List.length_take]; omega]
        rw [Nat.min_eq_left (by omega)]
        rw [if_pos (by omega)]
        rw [show fh.len - 0 - (k - (fho + 0)) = fho + fh.len - k
          from by omega]

/-- C3 (witness): a one-byte prefix of the two-byte Pingreq packet decodes
to `Partial(1)`. -/
theorem C3_witness :
    packet_decode [192, 0] =
      some (.ok (.done 2 ⟨⟨.pingreq, 0, 0⟩, none, .bytes []⟩)) ∧
    ([192, 0] : List Nat).length = 2 ∧
    (∃ m, 1 ≤ m ∧ 1 + m ≤ 2 ∧
      packet_decode (([192, 0] : List Nat).take 1) = some (.ok (.more m))) :=
  ⟨rfl, rfl, C3_prefix_partial [192, 0] 2 ⟨⟨.pingreq, 0, 0⟩, none, .bytes []⟩
    rfl rfl 1 (by decide)⟩

end Mqtt
